import Mathlib

/-!
Verification of the sqlite-zod-orm query-compilation and relationship engine.

The development shallowly embeds the TypeScript sources:
  - src/ast.ts            (ASTNode, compileAST)
  - src/proxy-query.ts    (ColumnNode, createContextProxy, compileProxyQuery)
  - src/schema.ts         (parseRelationships, transformForStorage/FromStorage)
  - unnamed schema.ts     (parseRelationsConfig)
  - src/query-factory.ts  (conditionResolver)
plus spec-modelled fragments for repository code not present in the sources
(the fluent QueryBuilder where-operator compiler and the polling subscribe
engine), each marked `Modelled from the spec:` in its doc comment.

JavaScript scalar values are embedded as `JsVal`. JS `Date` objects are
represented by their epoch-millisecond timestamp (`vdate t`); the string
`new Date(t).toISOString()` is represented by the distinguished string value
`viso t` — ISO-8601 strings produced by `toISOString` are in bijection with
epoch milliseconds, so the embedding keeps the timestamp as the canonical
representative of the rendered string.  JS numbers that appear in these code
paths are integers (ids, limits, 0/1 flags) and are embedded as `Int`.
-/

/-- Embedded JavaScript scalar values. `viso t` is the string
`new Date(t).toISOString()` (a TEXT value carrying its timestamp). -/
inductive JsVal : Type
  | vnull : JsVal
  | vint : Int → JsVal
  | vstr : String → JsVal
  | vbool : Bool → JsVal
  | vdate : Int → JsVal
  | viso : Int → JsVal
  deriving DecidableEq, Repr

namespace SourceAst

/-- ASTNode from src/ast.ts: tagged union of column, function, operator,
literal. Literal values are embedded JS scalars. -/
inductive ASTNode : Type
  | column (name : String) : ASTNode
  | function (name : String) (args : List ASTNode) : ASTNode
  | operator (op : String) (left right : ASTNode) : ASTNode
  | literal (value : JsVal) : ASTNode
  deriving Repr

/-- Literal normalization in compileAST (src/ast.ts lines 23-27):
a Date becomes its ISO string, a boolean becomes integer 1/0, everything
else passes through unchanged. -/
def normalizeLiteral : JsVal → JsVal
  | .vdate t => .viso t
  | .vbool b => .vint (cond b 1 0)
  | v => v

/-- compileAST from src/ast.ts lines 21-47: compiles an AST node to a SQL
fragment plus positional parameter list. Column nodes render as
double-quoted identifiers with no params; literal nodes render as a `?`
placeholder with one (normalized) param; function nodes concatenate child
params in argument order; operator nodes emit `(left OP right)`. -/
def compileAST : ASTNode → String × List JsVal
  | .column name => ("\"" ++ name ++ "\"", [])
  | .literal v => ("?", [normalizeLiteral v])
  | .function name args =>
      let compiledArgs := args.attach.map (fun a => compileAST a.1)
      (name ++ "(" ++ String.intercalate ", " (compiledArgs.map Prod.fst) ++ ")",
        (compiledArgs.map Prod.snd).flatten)
  | .operator op left right =>
      let l := compileAST left
      let r := compileAST right
      ("(" ++ l.1 ++ " " ++ op ++ " " ++ r.1 ++ ")", l.2 ++ r.2)
decreasing_by
  all_goals simp_wf
  all_goals try omega
  all_goals exact Nat.lt_trans (List.sizeOf_lt_of_mem a.2) (by omega)

/-- The literal leaves of an AST tree in left-to-right depth-first order,
each normalized by the compiler's literal rule. This is the specification
value for the params list of `compileAST`. -/
def astLiterals : ASTNode → List JsVal
  | .column _ => []
  | .literal v => [normalizeLiteral v]
  | .function _ args => (args.attach.map (fun a => astLiterals a.1)).flatten
  | .operator _ left right => astLiterals left ++ astLiterals right
decreasing_by
  all_goals simp_wf
  all_goals try omega
  all_goals exact Nat.lt_trans (List.sizeOf_lt_of_mem a.2) (by omega)

end SourceAst

/-! Decimal rendering of natural numbers, modelling the JavaScript base-10
string interpolation used for alias generation and LIMIT/OFFSET emission. -/

/-- Decimal digit characters of a natural number, most significant first. -/
def natDigits (n : Nat) : List Char :=
  if h : n < 10 then [Char.ofNat (48 + n)]
  else natDigits (n / 10) ++ [Char.ofNat (48 + n % 10)]
decreasing_by exact Nat.div_lt_self (by omega) (by omega)

/-- Base-10 rendering of a natural number, the model of JS template
interpolation of a non-negative integer. -/
def natToString (n : Nat) : String := ⟨natDigits n⟩

/-- Base-10 rendering of an integer (JS template interpolation of a number). -/
def intToString (i : Int) : String :=
  if i < 0 then "-" ++ natToString i.natAbs else natToString i.toNat

/-- Reads a digit list back into a natural number (left fold, base 10). -/
def digitsVal (cs : List Char) : Nat :=
  cs.foldl (fun acc c => acc * 10 + (c.toNat - 48)) 0

namespace SourceProxy

open SourceAst

/-- ColumnNode from src/proxy-query.ts lines 18-34: a reference to a table
column under a per-compilation alias. The source field `alias` is renamed
`aliasName` (the word is taken by a library command). -/
structure ColumnNode where
  table : String
  column : String
  aliasName : String
  deriving DecidableEq, Repr

/-- Quote an identifier with double quotes (src/proxy-query.ts `q`). -/
def q (name : String) : String := "\"" ++ name ++ "\""

/-- Quote a fully qualified reference alias.column (src/proxy-query.ts `qRef`). -/
def qRef (aliasName column : String) : String :=
  "\"" ++ aliasName ++ "\".\"" ++ column ++ "\""

/-- ColumnNode.toString from src/proxy-query.ts lines 27-29: the quoted
`"alias"."column"` form used as a computed property key. -/
def ColumnNode.toStr (c : ColumnNode) : String := qRef c.aliasName c.column

/-- AliasEntry from src/proxy-query.ts lines 85-89 (the `proxy` field of the
source entry is the lazily generated table proxy object and carries no data
beyond `tableName` and `alias`; it is omitted). -/
structure AliasEntry where
  tableName : String
  aliasName : String
  deriving DecidableEq, Repr

/-- Per-compilation state of the context proxy from createContextProxy
(src/proxy-query.ts lines 95-135): a monotone alias counter plus the alias
map (a JS `Map` from table name to the list of alias entries, in insertion
order). -/
structure ProxyCtx where
  aliasCounter : Nat
  aliasMap : List (String × List AliasEntry)
  deriving Repr

/-- The empty context at the start of a compilation. -/
def ProxyCtx.init : ProxyCtx := ⟨0, []⟩

/-- Appends an alias entry to the entry list of `tbl` in the alias map,
creating the key at the end when absent (JS `Map.get`/`set` on the alias
map, src/proxy-query.ts lines 126-128). -/
def mapAppendEntry (m : List (String × List AliasEntry)) (tbl : String)
    (e : AliasEntry) : List (String × List AliasEntry) :=
  if m.any (fun p => p.1 == tbl) then
    m.map (fun p => if p.1 == tbl then (p.1, p.2 ++ [e]) else p)
  else m ++ [(tbl, [e])]

/-- One table access through the context proxy (src/proxy-query.ts lines
103-131): increments the alias counter, assigns the fresh alias
`t{counter}` and records the entry in the alias map. The generated table
proxy itself only packages `(tableName, alias)`, which the returned
`AliasEntry` carries. -/
def accessTable (ctx : ProxyCtx) (tableName : String) : AliasEntry × ProxyCtx :=
  let n := ctx.aliasCounter + 1
  let e : AliasEntry := ⟨tableName, "t" ++ natToString n⟩
  (e, ⟨n, mapAppendEntry ctx.aliasMap tableName e⟩)

/-- Runs a sequence of table accesses from a starting context, returning the
final context (the aliases a user query callback causes to be allocated). -/
def accessSeq (tables : List String) (ctx : ProxyCtx) : ProxyCtx :=
  tables.foldl (fun c t => (accessTable c t).2) ctx

/-- All aliases recorded in the alias map, in map/entry order. -/
def aliasesOf (m : List (String × List AliasEntry)) : List String :=
  (m.map (fun p => p.2.map AliasEntry.aliasName)).flatten

/-- Column access on a table proxy (createTableProxy, src/proxy-query.ts
lines 55-81): a property access yields a ColumnNode for that column under
the table's alias; a property that is a registered belongs-to relationship
field resolves to the `field_id` FK column instead. -/
def proxyColumn (e : AliasEntry) (relationshipFields : List String)
    (prop : String) : ColumnNode :=
  let column := if prop ∈ relationshipFields then prop ++ "_id" else prop
  ⟨e.tableName, column, e.aliasName⟩

/-- A parameter bound to a compiled proxy query: either a scalar value or a
raw JS array (pushed unexpanded when a comparison operator receives an
array operand). -/
inductive ProxyParam : Type
  | pv : JsVal → ProxyParam
  | parr : List JsVal → ProxyParam
  deriving DecidableEq, Repr

/-- An operand inside a where condition object, as dispatched by the source
(`Array.isArray` distinguishes arrays from scalars). -/
inductive Operand : Type
  | oarr : List JsVal → Operand
  | oscalar : JsVal → Operand
  deriving DecidableEq, Repr

/-- The value a where-map key binds to. The source dispatches on the runtime
value (src/proxy-query.ts lines 231-265): a ColumnNode, an array, a plain
non-Date object of operator entries, or a scalar; the embedding tags the
four branches. -/
inductive WhereVal : Type
  | col : ColumnNode → WhereVal
  | arr : List JsVal → WhereVal
  | obj : List (String × Operand) → WhereVal
  | scalar : JsVal → WhereVal
  deriving DecidableEq, Repr

/-- One select output: a ColumnNode or a literal value. -/
inductive SelectVal : Type
  | col : ColumnNode → SelectVal
  | lit : JsVal → SelectVal
  deriving DecidableEq, Repr

/-- Order direction, rendered via toUpperCase in the source. -/
inductive Dir : Type
  | asc : Dir
  | desc : Dir
  deriving DecidableEq, Repr

/-- Rendering of a direction (dir.toUpperCase(), src/proxy-query.ts line 284). -/
def Dir.upper : Dir → String
  | .asc => "ASC"
  | .desc => "DESC"

/-- ProxyQueryResult from src/proxy-query.ts lines 141-149, the descriptor a
user callback returns. JS object maps are embedded as entry lists in
iteration order; the optional `where` (a Lean keyword) is renamed
`whereMap`; absent optional fields are empty lists. `join` entries are the
explicit ColumnNode pairs of the DSL (the source type also admits
`undefined` components, which only arise from misuse and crash the
compiler; they are outside the embedded descriptor domain). `groupBy` holds
the column nodes surviving the source's `.filter(Boolean)`. -/
structure ProxyQueryResult where
  select : List (String × SelectVal)
  join : List (ColumnNode × ColumnNode) := []
  whereMap : List (String × WhereVal) := []
  orderBy : List (String × Dir) := []
  groupBy : List ColumnNode := []
  limit : Option Int := none
  offset : Option Int := none
  deriving DecidableEq, Repr

/-- Compilation failures of compileProxyQuery. `typeErr` stands for the JS
TypeError raised when `$in` receives a non-array operand (`arr.map is not a
function`); the three named errors are the source's thrown `Error`s. -/
inductive CompileError : Type
  | noTables : CompileError
  | unknownJoinAlias : CompileError
  | unsupportedOperator : String → CompileError
  | typeErr : CompileError
  deriving DecidableEq, Repr

/-- JS Map.set semantics on an association list: an existing key keeps its
position and gets the new value, a new key is appended. -/
def mapSet (m : List (String × String)) (k v : String) : List (String × String) :=
  if m.any (fun p => p.1 == k) then
    m.map (fun p => if p.1 == k then (k, v) else p)
  else m ++ [(k, v)]

/-- The tablesUsed map of compileProxyQuery (src/proxy-query.ts lines
167-173): alias → table name, built by iterating the alias map. -/
def tablesUsedOf (aliasMap : List (String × List AliasEntry)) : List (String × String) :=
  aliasMap.foldl
    (fun acc p => p.2.foldl (fun acc2 e => mapSet acc2 e.aliasName p.1) acc) []

/-- Lookup in an association list (JS Map.get / Map.has). -/
def lookupStr (m : List (String × String)) (k : String) : Option String :=
  (m.find? (fun p => p.1 == k)).map Prod.snd

/-- One SELECT part (src/proxy-query.ts lines 177-189): a ColumnNode renders
as the qualified reference, with `AS` only when the output name differs
from the column name; a literal renders as a placeholder and one pushed
param. -/
def compileSelectEntry : String × SelectVal → String × List ProxyParam
  | (outputName, .col c) =>
      (if outputName = c.column then qRef c.aliasName c.column
       else qRef c.aliasName c.column ++ " AS " ++ q outputName, [])
  | (outputName, .lit v) => ("? AS " ++ q outputName, [.pv v])

/-- JOIN emission (src/proxy-query.ts lines 199-214): both sides of each
pair must be known aliases; the appended JOIN target is the right side when
the left is the primary alias, else the left side. -/
def compileJoins (tu : List (String × String)) (primaryAlias : String) :
    List (ColumnNode × ColumnNode) → Except CompileError String
  | [] => .ok ""
  | (l, r) :: rest =>
      match lookupStr tu l.aliasName, lookupStr tu r.aliasName with
      | some lt, some rt =>
          let ja := if l.aliasName = primaryAlias then (rt, r.aliasName) else (lt, l.aliasName)
          (compileJoins tu primaryAlias rest).map
            (fun rs => " JOIN " ++ q ja.1 ++ " " ++ q ja.2 ++ " ON "
              ++ qRef l.aliasName l.column ++ " = " ++ qRef r.aliasName r.column ++ rs)
      | _, _ => .error .unknownJoinAlias

/-- The quoted-pattern match of where/orderBy keys, the model of the regex
match against /^"([^"]+)"\."([^"]+)"$/ (src/proxy-query.ts lines 224 and
278): both groups are the maximal nonempty quote-free runs, separated by
`"."` and closed by a final quote at end of string. -/
def parseQualifiedKey (s : String) : Option (String × String) :=
  match s.data with
  | '"' :: rest =>
      let a := rest.takeWhile (fun c => c != '"')
      match rest.dropWhile (fun c => c != '"') with
      | '"' :: '.' :: '"' :: r2 =>
          let b := r2.takeWhile (fun c => c != '"')
          if a ≠ [] ∧ b ≠ [] ∧ r2.dropWhile (fun c => c != '"') = ['"'] then
            some (⟨a⟩, ⟨b⟩)
          else none
      | _ => none
  | _ => none

/-- Field-reference resolution for where/orderBy keys (src/proxy-query.ts
lines 220-229 and 276-283): a key matching the quoted pattern with a known
alias is used verbatim; any other key is scoped to the primary alias. -/
def resolveFieldRef (tu : List (String × String)) (primaryAlias key : String) : String :=
  match parseQualifiedKey key with
  | some (a, _) => if (lookupStr tu a).isSome then key else qRef primaryAlias key
  | none => qRef primaryAlias key

/-- A comma-separated list of `n` placeholders. -/
def placeholders (n : Nat) : String :=
  String.intercalate ", " (List.replicate n "?")

/-- The comparison-operator map of the where compiler
(src/proxy-query.ts lines 254-256). -/
def opMapLookup : String → Option String
  | "$gt" => some ">"
  | "$gte" => some ">="
  | "$lt" => some "<"
  | "$lte" => some "<="
  | "$ne" => some "!="
  | _ => none

/-- Compilation of the operator entries of one condition object
(src/proxy-query.ts lines 242-261): `$in` with an array emits the IN list
(or the always-false `1 = 0` on empty) and spreads the elements into
params; `$in` with a non-array crashes (TypeError); a mapped comparison
operator emits `fieldRef OP ?` and pushes the raw operand; anything else
throws `Unsupported where operator`. -/
def compileOps (fieldRef : String) :
    List (String × Operand) → Except CompileError (List String × List ProxyParam)
  | [] => .ok ([], [])
  | (opKey, operand) :: rest =>
      if opKey = "$in" then
        match operand with
        | .oarr vs =>
            let part := if vs.isEmpty then "1 = 0"
              else fieldRef ++ " IN (" ++ placeholders vs.length ++ ")"
            let ps : List ProxyParam := if vs.isEmpty then [] else vs.map ProxyParam.pv
            (compileOps fieldRef rest).map (fun pr => (part :: pr.1, ps ++ pr.2))
        | .oscalar _ => .error .typeErr
      else
        match opMapLookup opKey with
        | some sqlOp =>
            let p : ProxyParam := match operand with
              | .oarr vs => .parr vs
              | .oscalar v => .pv v
            (compileOps fieldRef rest).map
              (fun pr => ((fieldRef ++ " " ++ sqlOp ++ " ?") :: pr.1, p :: pr.2))
        | none => .error (.unsupportedOperator opKey)

/-- Scalar normalization of a direct where equality (src/proxy-query.ts line
264): a Date is bound as its ISO string, every other scalar is bound raw. -/
def whereScalarParam : JsVal → JsVal
  | .vdate t => .viso t
  | v => v

/-- Compilation of one where-map entry (src/proxy-query.ts lines 220-265):
resolves the field reference, then dispatches on the value: column
equality, array membership (empty array short-circuits to `1 = 0`),
operator object, or scalar equality. Returns the emitted parts and params
of this entry. -/
def compileWhereEntry (tu : List (String × String)) (primaryAlias : String) :
    String × WhereVal → Except CompileError (List String × List ProxyParam)
  | (key, wv) =>
      let fieldRef := resolveFieldRef tu primaryAlias key
      match wv with
      | .col c => .ok ([fieldRef ++ " = " ++ qRef c.aliasName c.column], [])
      | .arr vs =>
          if vs.isEmpty then .ok (["1 = 0"], [])
          else .ok ([fieldRef ++ " IN (" ++ placeholders vs.length ++ ")"],
            vs.map ProxyParam.pv)
      | .obj ops => compileOps fieldRef ops
      | .scalar v => .ok ([fieldRef ++ " = ?"], [.pv (whereScalarParam v)])

/-- Folds compileWhereEntry over the whole where map, concatenating parts
and params in entry order (errors abort, as a thrown exception does). -/
def compileWhereAll (tu : List (String × String)) (primaryAlias : String) :
    List (String × WhereVal) → Except CompileError (List String × List ProxyParam)
  | [] => .ok ([], [])
  | e :: rest => do
      let r ← compileWhereEntry tu primaryAlias e
      let rs ← compileWhereAll tu primaryAlias rest
      .ok (r.1 ++ rs.1, r.2 ++ rs.2)

/-- The final statement assembly of compileProxyQuery (src/proxy-query.ts
lines 196-305): SELECT list, FROM on the primary alias, the JOIN clauses,
WHERE (omitted when no parts were emitted), ORDER BY, GROUP BY, and
LIMIT/OFFSET — whose values are interpolated into the text. -/
def assembleSql (selectParts : List String) (primaryAlias primaryTable : String)
    (joinSql : String) (whereParts : List String) (orderParts : List String)
    (groupParts : List String) (limit offset : Option Int) : String :=
  "SELECT " ++ String.intercalate ", " selectParts
    ++ " FROM " ++ q primaryTable ++ " " ++ q primaryAlias
    ++ joinSql
    ++ (if whereParts.isEmpty then ""
        else " WHERE " ++ String.intercalate " AND " whereParts)
    ++ (if orderParts.isEmpty then ""
        else " ORDER BY " ++ String.intercalate ", " orderParts)
    ++ (if groupParts.isEmpty then ""
        else " GROUP BY " ++ String.intercalate ", " groupParts)
    ++ (match limit with
        | some n => " LIMIT " ++ intToString n
        | none => "")
    ++ (match offset with
        | some n => " OFFSET " ++ intToString n
        | none => "")

/-- compileProxyQuery from src/proxy-query.ts lines 160-306: emits the
SELECT list, the FROM clause on the first used alias, JOINs, WHERE, ORDER
BY, GROUP BY and LIMIT/OFFSET. LIMIT and OFFSET values are interpolated
into the SQL text; select literals and where operands are bound as
parameters (select params first, then where params, in entry order). -/
def compileProxyQuery (qr : ProxyQueryResult)
    (aliasMap : List (String × List AliasEntry)) :
    Except CompileError (String × List ProxyParam) := do
  let tu := tablesUsedOf aliasMap
  let selectCompiled := qr.select.map compileSelectEntry
  match tu with
  | [] => .error .noTables
  | (primaryAlias, primaryTable) :: _ =>
      let joinSql ← compileJoins tu primaryAlias qr.join
      let wres ← compileWhereAll tu primaryAlias qr.whereMap
      .ok (assembleSql (selectCompiled.map Prod.fst) primaryAlias primaryTable
            joinSql wres.1
            (qr.orderBy.map (fun p => resolveFieldRef tu primaryAlias p.1 ++ " " ++ p.2.upper))
            (qr.groupBy.map (fun c => qRef c.aliasName c.column)) qr.limit qr.offset,
        (selectCompiled.map Prod.snd).flatten ++ wres.2)

/-- The per-compilation alias invariant: all recorded aliases are distinct,
every alias is `t{k}` for some `1 <= k <= aliasCounter`, and the alias-map
keys are distinct (a JS Map has unique keys). -/
def ctxInv (ctx : ProxyCtx) : Prop :=
  (aliasesOf ctx.aliasMap).Nodup
  ∧ (∀ a ∈ aliasesOf ctx.aliasMap,
      ∃ k, 1 ≤ k ∧ k ≤ ctx.aliasCounter ∧ a = "t" ++ natToString k)
  ∧ (ctx.aliasMap.map Prod.fst).Nodup

/-- Applies a scalar renaming to one bound parameter. -/
def mapParam (f : JsVal → JsVal) : ProxyParam → ProxyParam
  | .pv v => .pv (f v)
  | .parr vs => .parr (vs.map f)

/-- Applies a scalar renaming to one where-map value, preserving its shape
(columns and keys untouched, arrays mapped elementwise). -/
def mapWhereVal (f : JsVal → JsVal) : WhereVal → WhereVal
  | .col c => .col c
  | .arr vs => .arr (vs.map f)
  | .obj ops => .obj (ops.map (fun o => (o.1,
      match o.2 with
      | Operand.oarr vs => Operand.oarr (vs.map f)
      | Operand.oscalar v => Operand.oscalar (f v))))
  | .scalar v => .scalar (f v)

/-- Applies a scalar renaming to every user-supplied value of a query
descriptor: select literals and where operands. Structure, identifiers,
keys, joins, order, grouping and limit/offset are untouched. -/
def mapScalarsQ (f : JsVal → JsVal) (qr : ProxyQueryResult) : ProxyQueryResult :=
  { qr with
    select := qr.select.map (fun e => (e.1,
      match e.2 with
      | SelectVal.col c => SelectVal.col c
      | SelectVal.lit v => SelectVal.lit (f v))),
    whereMap := qr.whereMap.map (fun e => (e.1, mapWhereVal f e.2)) }

/-- The user-supplied scalars of one where-map value, in the order and with
the normalization the compiler binds them (the direct-equality Date
normalization included). An entry that would fail compilation contributes
its prefix up to the failure; theorems use this only on succeeding
queries. -/
def whereValScalars : WhereVal → List ProxyParam
  | .col _ => []
  | .arr vs => if vs.isEmpty then [] else vs.map ProxyParam.pv
  | .obj ops => ops.flatMap (fun o =>
      if o.1 = "$in" then
        match o.2 with
        | Operand.oarr vs => if vs.isEmpty then [] else vs.map ProxyParam.pv
        | Operand.oscalar _ => []
      else
        match opMapLookup o.1 with
        | some _ =>
            [match o.2 with
              | Operand.oarr vs => ProxyParam.parr vs
              | Operand.oscalar v => ProxyParam.pv v]
        | none => [])
  | .scalar v => [.pv (whereScalarParam v)]

/-- All user-supplied values of a query descriptor in binding order:
select literals first, then the where operands entry by entry. -/
def collectScalars (qr : ProxyQueryResult) : List ProxyParam :=
  (qr.select.map (fun e =>
    match e.2 with
    | SelectVal.col _ => ([] : List ProxyParam)
    | SelectVal.lit v => [.pv v])).flatten
  ++ (qr.whereMap.map (fun e => whereValScalars e.2)).flatten

/-- Both sides of a join pair refer to aliases present in the alias table. -/
def joinOk (tu : List (String × String)) (j : ColumnNode × ColumnNode) : Bool :=
  (lookupStr tu j.1.aliasName).isSome && (lookupStr tu j.2.aliasName).isSome

/-- Operator keys the proxy where-compiler accepts. -/
def proxySupportedOp (k : String) : Bool :=
  k == "$in" || (opMapLookup k).isSome

/-- Every operator key of a where-map value is supported. -/
def entryOpsOk : WhereVal → Bool
  | .obj ops => ops.all (fun o => proxySupportedOp o.1)
  | _ => true

/-- Well-formedness of `$in` operands (the DSL contract `$in: scalar[]`):
inside a condition object, `$in` carries an array. -/
def entryInWf : WhereVal → Bool
  | .obj ops => ops.all (fun o => o.1 != "$in" ||
      match o.2 with
      | Operand.oarr _ => true
      | Operand.oscalar _ => false)
  | _ => true

end SourceProxy

namespace SourceSchema

/-- Relationship kind (src/types.ts lines 38-44). -/
inductive RelType : Type
  | belongsTo : RelType
  | oneToMany : RelType
  deriving DecidableEq, Repr

/-- Relationship descriptor from src/types.ts lines 38-44. The source
fields `from` and `to` are Lean keywords and are renamed `fromTable` and
`toTable`. -/
structure Relationship where
  type : RelType
  fromTable : String
  toTable : String
  relationshipField : String
  foreignKey : String
  deriving DecidableEq, Repr

/-- A zod field declaration as inspected by parseRelationships
(src/schema.ts lines 15-32), after the single ZodOptional unwrap the
source performs first: a plain field, a scalar `z.lazy` forward reference,
or an array-wrapped `z.lazy` forward reference. The lazily resolved target
is identified by the identity of the schema object it returns, embedded as
the numeric object identity `target`. -/
inductive FieldDecl : Type
  | plain : FieldDecl
  | lazyRef : Nat → FieldDecl
  | lazyArray : Nat → FieldDecl
  deriving DecidableEq, Repr

/-- A registered table schema: its runtime object identity plus its shape. -/
structure SchemaDef where
  objId : Nat
  fields : List (String × FieldDecl)
  deriving DecidableEq, Repr

/-- Resolution of a lazily referenced schema object against the registry
(src/schema.ts lines 35-37): the first registered name whose schema object
is identical to the target. -/
def findTargetName (schemas : List (String × SchemaDef)) (target : Nat) : Option String :=
  (schemas.find? (fun p => p.2.objId == target)).map Prod.fst

/-- parseRelationships from src/schema.ts lines 9-54 (the schema-driven
construction path): every scalar lazy field yields a belongs-to descriptor
with foreign key `fieldName ++ "Id"`, every array lazy field yields a
one-to-many descriptor with empty foreign key; fields whose target is not
a registered schema are skipped. -/
def parseRelationships (schemas : List (String × SchemaDef)) : List Relationship :=
  (schemas.map (fun p =>
    p.2.fields.filterMap (fun f =>
      match f.2 with
      | .plain => none
      | .lazyRef t =>
          (findTargetName schemas t).map (fun tn =>
            ⟨.belongsTo, p.1, tn, f.1, f.1 ++ "Id"⟩)
      | .lazyArray t =>
          (findTargetName schemas t).map (fun tn =>
            ⟨.oneToMany, p.1, tn, f.1, ""⟩)))).flatten

/-- Registry-construction failures of parseRelationsConfig (unnamed
schema.ts lines 24-30). -/
inductive ConfigError : Type
  | unknownTable : String → ConfigError
  | unknownTargetTable : String → ConfigError
  deriving DecidableEq, Repr

/-- The belongs-to dedup key of parseRelationsConfig (unnamed schema.ts
line 33). -/
def relKeyBT (fromTable fieldName : String) : String :=
  fromTable ++ "." ++ fieldName ++ ":belongs-to"

/-- The one-to-many dedup key of parseRelationsConfig (unnamed schema.ts
line 46). -/
def relKeyOTM (toTable fromTable : String) : String :=
  toTable ++ "." ++ fromTable ++ ":one-to-many"

/-- Accumulator of parseRelationsConfig: the emitted descriptors plus the
`added` dedup-key set (embedded as the list of keys in insertion order). -/
structure RelState where
  rels : List Relationship
  added : List String
  deriving DecidableEq, Repr

/-- Processing of one `fieldName: toTable` entry of a relations config
(unnamed schema.ts lines 27-57): validate the target table, then emit the
belongs-to descriptor (foreign key `fieldName ++ "_id"`) and the inferred
one-to-many inverse (navigation field = the child table name), each only
when its dedup key is not yet present. -/
def processRelField (schemas : List String) (fromTable : String) (st : RelState)
    (f : String × String) : Except ConfigError RelState :=
  if schemas.contains f.2 then
    let btKey := relKeyBT fromTable f.1
    let st1 := if btKey ∈ st.added then st
      else ⟨st.rels ++ [⟨.belongsTo, fromTable, f.2, f.1, f.1 ++ "_id"⟩],
        st.added ++ [btKey]⟩
    let otmKey := relKeyOTM f.2 fromTable
    if otmKey ∈ st1.added then .ok st1
    else .ok ⟨st1.rels ++ [⟨.oneToMany, f.2, fromTable, fromTable, ""⟩],
      st1.added ++ [otmKey]⟩
  else .error (.unknownTargetTable f.2)

/-- Folds processRelField over the field entries of one child table. -/
def processRelFields (schemas : List String) (fromTable : String) :
    RelState → List (String × String) → Except ConfigError RelState
  | st, [] => .ok st
  | st, f :: rest => do
      processRelFields schemas fromTable (← processRelField schemas fromTable st f) rest

/-- Folds the per-table processing over the whole config, validating each
child table name first (unnamed schema.ts lines 23-26). -/
def processRelTables (schemas : List String) :
    RelState → List (String × List (String × String)) → Except ConfigError RelState
  | st, [] => .ok st
  | st, t :: rest =>
      if schemas.contains t.1 then do
        processRelTables schemas (← processRelFields schemas t.1 st t.2) rest
      else .error (.unknownTable t.1)

/-- parseRelationsConfig from the unnamed schema.ts lines 16-61 (the
config-driven construction path): parses `{childTable: {fieldName:
parentTable}}` into belongs-to descriptors plus auto-inferred one-to-many
inverses, deduplicated by the composite table/field/kind key. The config
object is embedded as its entry list in iteration order; `schemas` is the
set of registered table names. -/
def parseRelationsConfig (relations : List (String × List (String × String)))
    (schemas : List String) : Except ConfigError (List Relationship) :=
  (processRelTables schemas ⟨[], []⟩ relations).map RelState.rels

/-- The dedup key a descriptor was registered under: the belongs-to key for
belongs-to descriptors, the one-to-many key (parent, child) for inferred
inverses. -/
def descKey (r : Relationship) : String :=
  match r.type with
  | .belongsTo => relKeyBT r.fromTable r.relationshipField
  | .oneToMany => relKeyOTM r.fromTable r.toTable

/-- A string is dot-free (table identifiers in the dedup keys). -/
def dotFree (s : String) : Prop := '.' ∉ s.data

/-- The registry-construction invariant: the dedup-key set mirrors the
emitted descriptors one for one (same order), keys are distinct, every
descriptor's shape is pinned by its kind (belongs-to FK is field ++ "_id";
an inferred inverse's navigation field is the child table and its FK is
empty), and descriptor table names are dot-free. -/
def StInv (st : RelState) : Prop :=
  st.added = st.rels.map descKey
  ∧ st.added.Nodup
  ∧ (∀ r ∈ st.rels, r.type = RelType.belongsTo →
      r.foreignKey = r.relationshipField ++ "_id")
  ∧ (∀ r ∈ st.rels, r.type = RelType.oneToMany →
      r.relationshipField = r.toTable ∧ r.foreignKey = "")
  ∧ (∀ r ∈ st.rels, dotFree r.fromTable)

/-- A value appearing in a fluent where-conditions object, as dispatched by
conditionResolver (src/query-factory.ts lines 50-52): an augmented entity
(an object carrying a numeric `id` and a `delete` method) or any other
value, which passes through. -/
inductive CondVal : Type
  | entity : Int → CondVal
  | plain : JsVal → CondVal
  deriving DecidableEq, Repr

/-- conditionResolver from src/query-factory.ts lines 48-78: an entity
value under key `k` is resolved to a foreign-key column — first the
belongs-to of `entityName` whose foreignKey is `k ++ "_id"`, then any
belongs-to of `entityName` targeting table `k ++ "s"` or table `k`; when
no relationship matches, the entry passes through unchanged. -/
def conditionResolver (relationships : List Relationship) (entityName : String)
    (conditions : List (String × CondVal)) : List (String × CondVal) :=
  conditions.map (fun e =>
    match e.2 with
    | .plain v => (e.1, CondVal.plain v)
    | .entity i =>
        let fkCol := e.1 ++ "_id"
        match relationships.find? (fun r =>
            r.type == RelType.belongsTo && r.fromTable == entityName
              && r.foreignKey == fkCol) with
        | some _ => (fkCol, CondVal.plain (.vint i))
        | none =>
            match (relationships.find? (fun r =>
                r.type == RelType.belongsTo && r.fromTable == entityName
                  && r.toTable == e.1 ++ "s")).orElse (fun _ =>
              relationships.find? (fun r =>
                r.type == RelType.belongsTo && r.fromTable == entityName
                  && r.toTable == e.1)) with
            | some rel => (rel.foreignKey, CondVal.plain (.vint i))
            | none => (e.1, CondVal.entity i))

/-- The zod field types relevant to the storage transforms
(src/schema.ts lines 102-121), with the optional/default wrappers. -/
inductive ZType : Type
  | zstring : ZType
  | znumber : ZType
  | zboolean : ZType
  | zdate : ZType
  | zoptional : ZType → ZType
  | zdefault : ZType → ZType
  | zother : ZType
  deriving DecidableEq, Repr

/-- The sequential single unwraps transformFromStorage performs: one
ZodOptional layer, then one ZodDefault layer (src/schema.ts lines
105-111). -/
def unwrapField (t : ZType) : ZType :=
  let t1 := match t with
    | .zoptional inner => inner
    | other => other
  match t1 with
  | .zdefault inner => inner
  | other => other

/-- The per-value conversion of transformForStorage (src/schema.ts lines
89-96): a Date becomes its ISO string, a boolean becomes the integer 1/0,
every other value passes through. -/
def storageValue : JsVal → JsVal
  | .vdate t => JsVal.viso t
  | .vbool b => JsVal.vint (cond b 1 0)
  | v => v

/-- transformForStorage from src/schema.ts lines 87-99: applies the
per-value conversion to every field; the transform is schema-independent. -/
def transformForStorage (data : List (String × JsVal)) : List (String × JsVal) :=
  data.map (fun e => (e.1, storageValue e.2))

/-- The per-value conversion of transformFromStorage (src/schema.ts lines
102-121): for a Date-typed field a stored string is parsed back into a
Date, for a boolean-typed field a stored number becomes `value === 1`;
everything else passes through. In the embedding, only ISO strings
carrying their timestamp (`viso`) are parsed back into dates — the storage
layer never writes any other string into a Date-typed column, and JS date
parsing of arbitrary text is outside the model. -/
def parseStorageValue (ft : Option ZType) (v : JsVal) : JsVal :=
  match ft with
  | some .zdate =>
      match v with
      | .viso t => JsVal.vdate t
      | v => v
  | some .zboolean =>
      match v with
      | .vint n => JsVal.vbool (n == 1)
      | v => v
  | _ => v

/-- transformFromStorage over a whole row: field types are looked up in the
shape (with the optional/default unwraps) and each value is parsed by
`parseStorageValue`. -/
def transformFromStorage (row : List (String × JsVal))
    (shape : List (String × ZType)) : List (String × JsVal) :=
  row.map (fun e =>
    (e.1, parseStorageValue
      ((shape.find? (fun p => p.1 == e.1)).map (fun p => unwrapField p.2)) e.2))

/-- Schema conformance of one value: null is always admissible (optional
fields), otherwise the unwrapped field type and the value's runtime type
agree (string, integer number, boolean, Date). -/
def matchesType (t : ZType) (v : JsVal) : Bool :=
  v == JsVal.vnull ||
  match unwrapField t, v with
  | .zstring, .vstr _ => true
  | .znumber, .vint _ => true
  | .zboolean, .vbool _ => true
  | .zdate, .vdate _ => true
  | _, _ => false

/-- A record conforms to a schema shape when every field is declared in the
shape and its value matches the declared type. -/
def conforms (shape : List (String × ZType)) (data : List (String × JsVal)) : Bool :=
  data.all (fun e =>
    match shape.find? (fun p => p.1 == e.1) with
    | some p => matchesType p.2 e.2
    | none => false)

end SourceSchema

namespace SpecBuilder

open SourceProxy

/-- Failures of the fluent where-operator compiler, per the spec's error
taxonomy (§7): an unsupported operator key, and a `$between` operand that
is not a two-element array. -/
inductive BuilderError : Type
  | unsupportedOperator : String → BuilderError
  | malformedBetween : BuilderError
  deriving DecidableEq, Repr

/-- Modelled from the spec: the fluent QueryBuilder core's where-operator
compiler. query-builder.ts is not among the provided sources (only its
tests, type declarations and the factory wiring are), so this follows the
spec §4.3/§6 and the behavior pinned by the v3.14 operator tests:
`$gt/$gte/$lt/$lte/$ne/$like` map to one comparison fragment binding the
operand; `$in`/`$notIn` with an empty array short-circuit to the
always-false `1 = 0` / always-true `1 = 1` fragment and otherwise emit an
`IN`/`NOT IN` list with one placeholder per element; `$between` requires
exactly a two-element array (failing with `malformedBetween` otherwise)
and emits a closed range; any other operator key fails as unsupported.
A non-array operand for `$in`/`$notIn` is outside the documented DSL
contract (`scalar[]`): the model maps it to `unsupportedOperator` and
every theorem about this path restricts operands to arrays. -/
def builderOpFragment (column : String) (opKey : String) (operand : Operand) :
    Except BuilderError (String × List JsVal) :=
  if opKey = "$gt" then .ok (column ++ " > ?", [operandScalar operand])
  else if opKey = "$gte" then .ok (column ++ " >= ?", [operandScalar operand])
  else if opKey = "$lt" then .ok (column ++ " < ?", [operandScalar operand])
  else if opKey = "$lte" then .ok (column ++ " <= ?", [operandScalar operand])
  else if opKey = "$ne" then .ok (column ++ " != ?", [operandScalar operand])
  else if opKey = "$like" then .ok (column ++ " LIKE ?", [operandScalar operand])
  else if opKey = "$in" then
    match operand with
    | .oarr [] => .ok ("1 = 0", [])
    | .oarr vs => .ok (column ++ " IN (" ++ placeholders vs.length ++ ")", vs)
    | .oscalar _ => .error (.unsupportedOperator "$in")
  else if opKey = "$notIn" then
    match operand with
    | .oarr [] => .ok ("1 = 1", [])
    | .oarr vs => .ok (column ++ " NOT IN (" ++ placeholders vs.length ++ ")", vs)
    | .oscalar _ => .error (.unsupportedOperator "$notIn")
  else if opKey = "$between" then
    match operand with
    | .oarr [lo, hi] => .ok (column ++ " BETWEEN ? AND ?", [lo, hi])
    | _ => .error .malformedBetween
  else .error (.unsupportedOperator opKey)
where
  operandScalar : Operand → JsVal
    | .oscalar v => v
    | .oarr _ => JsVal.vnull

/-- The operator keys the builder core supports (spec sections 4.3 and 6). -/
def builderSupported (k : String) : Bool :=
  k == "$gt" || k == "$gte" || k == "$lt" || k == "$lte" || k == "$ne"
    || k == "$like" || k == "$in" || k == "$notIn" || k == "$between"

end SpecBuilder

namespace SpecReactivity

/-- A stored row with its auto-increment primary key. -/
structure Row where
  id : Nat
  payload : String
  deriving DecidableEq, Repr

/-- The observable database state for one table: its rows plus the
monotonic change-sequence counter maintained by the change log. -/
structure DBState where
  rows : List Row
  changeSeq : Nat
  deriving DecidableEq, Repr

/-- Polling subscription options (spec §6): the poll interval is timing
only and is not part of the functional model; `immediate` controls the
first tick; `useChangeSeq` is the opt-in change-sequence fingerprint
component (spec §4.5). -/
structure SubCfg where
  immediate : Bool
  useChangeSeq : Bool
  deriving DecidableEq, Repr

/-- The fingerprint of a subscribed query scope (spec §3): row count, max
primary key, and the optional change-sequence component. -/
structure Fingerprint where
  count : Nat
  maxId : Option Nat
  changeSeq : Option Nat
  deriving DecidableEq, Repr

/-- The rows of the database in the subscription's WHERE scope. -/
def scopeRows (pred : Row → Bool) (db : DBState) : List Row :=
  db.rows.filter pred

/-- Modelled from the spec: the fingerprint query of the polling engine
(query-builder.ts subscribe is not among the provided sources). Computes
COUNT and MAX(id) over the subscribed WHERE scope and, when enabled, the
change-sequence component (spec §4.5). -/
def fingerprintOf (cfg : SubCfg) (pred : Row → Bool) (db : DBState) : Fingerprint :=
  let rs := scopeRows pred db
  ⟨rs.length, (rs.map Row.id).max?,
    if cfg.useChangeSeq then some db.changeSeq else none⟩

/-- Per-subscription polling state: the fingerprint of the previous tick,
absent before the first tick. -/
structure SubState where
  last : Option Fingerprint
  deriving DecidableEq, Repr

/-- The subscription created on subscribe, before its first tick. -/
def SubState.fresh : SubState := ⟨none⟩

/-- Modelled from the spec: one poll tick of a subscription
(query-builder.ts subscribe is not among the provided sources). The first
tick delivers the current result set immediately unless suppressed by
`immediate = false`; a later tick recomputes the fingerprint and
re-delivers the full result set exactly when it differs from the previous
tick's fingerprint (spec §4.5). Returns the new state and the delivered
result set, if any. -/
def tick (cfg : SubCfg) (pred : Row → Bool) (db : DBState) (s : SubState) :
    SubState × Option (List Row) :=
  let fp := fingerprintOf cfg pred db
  match s.last with
  | none => (⟨some fp⟩, if cfg.immediate then some (scopeRows pred db) else none)
  | some prev => (⟨some fp⟩, if fp ≠ prev then some (scopeRows pred db) else none)

/-- A mutation through the CRUD path: inserting a row appends it and bumps
the change sequence (the change-log trigger). -/
def insertRow (db : DBState) (r : Row) : DBState :=
  ⟨db.rows ++ [r], db.changeSeq + 1⟩

end SpecReactivity

theorem digitsVal_append (cs : List Char) (c : Char) :
    digitsVal (cs ++ [c]) = digitsVal cs * 10 + (c.toNat - 48) := by
  simp [digitsVal, List.foldl_append]

theorem toNat_ofNat_digit (d : Nat) (h : d < 10) :
    (Char.ofNat (48 + d)).toNat = 48 + d := by
  interval_cases d <;> decide

theorem digitsVal_natDigits (n : Nat) : digitsVal (natDigits n) = n := by
  induction n using Nat.strong_induction_on with
  | _ n ih =>
    rw [natDigits]
    by_cases h : n < 10
    · rw [dif_pos h]
      simp [digitsVal, toNat_ofNat_digit n h]
    · rw [dif_neg h]
      rw [digitsVal_append, ih (n / 10) (Nat.div_lt_self (by omega) (by omega)),
        toNat_ofNat_digit (n % 10) (Nat.mod_lt _ (by omega))]
      omega

theorem natToString_injective : Function.Injective natToString := by
  intro m n h
  have hd : natDigits m = natDigits n := congrArg String.data h
  have := digitsVal_natDigits m
  rw [hd, digitsVal_natDigits n] at this
  omega

/-- Characters of the decimal rendering are decimal digits (never a quote,
a dot or a question mark). -/
theorem natDigits_digit (n : Nat) : ∀ c ∈ natDigits n, 48 ≤ c.toNat ∧ c.toNat ≤ 57 := by
  induction n using Nat.strong_induction_on with
  | _ n ih =>
    rw [natDigits]
    by_cases h : n < 10
    · rw [dif_pos h]
      intro c hc
      simp only [List.mem_singleton] at hc
      subst hc
      rw [toNat_ofNat_digit n h]
      omega
    · rw [dif_neg h]
      intro c hc
      rcases List.mem_append.1 hc with h1 | h1
      · exact ih (n / 10) (Nat.div_lt_self (by omega) (by omega)) c h1
      · simp only [List.mem_singleton] at h1
        subst h1
        rw [toNat_ofNat_digit (n % 10) (Nat.mod_lt _ (by omega))]
        omega

namespace SourceAst

/-- Helper: the compiled params of a tree are exactly its normalized literal
leaves in depth-first order. -/
theorem compileAST_params_eq (t : ASTNode) : (compileAST t).2 = astLiterals t := by
  induction t using compileAST.induct with
  | case1 name => simp [compileAST, astLiterals]
  | case2 v => simp [compileAST, astLiterals]
  | case3 name args ih =>
      simp only [compileAST, astLiterals]
      rw [List.map_map]
      congr 1
      exact List.map_congr_left (fun a _ => ih a)
  | case4 op left right ihl ihr =>
      simp only [compileAST, astLiterals]
      rw [ihl, ihr]

end SourceAst

/-- C2: for every ASTNode tree, compileAST is deterministic, its params list
equals the tree's literal leaves in left-to-right depth-first order, a
Column node compiles to a double-quoted identifier with zero params, and a
Literal node compiles to one placeholder with exactly one param, where a
Date is normalized to its ISO-8601 string and a boolean to the integer 1
or 0. -/
theorem claim_C2_ast_compiler :
    (∀ t r₁ r₂, r₁ = SourceAst.compileAST t → r₂ = SourceAst.compileAST t → r₁ = r₂)
    ∧ (∀ t, (SourceAst.compileAST t).2 = SourceAst.astLiterals t)
    ∧ (∀ n, SourceAst.compileAST (.column n) = ("\"" ++ n ++ "\"", []))
    ∧ (∀ v, SourceAst.compileAST (.literal v) = ("?", [SourceAst.normalizeLiteral v]))
    ∧ (∀ tm, SourceAst.normalizeLiteral (.vdate tm) = .viso tm)
    ∧ SourceAst.normalizeLiteral (.vbool true) = .vint 1
    ∧ SourceAst.normalizeLiteral (.vbool false) = .vint 0 := by
  refine ⟨fun t r₁ r₂ h₁ h₂ => h₁.trans h₂.symm, SourceAst.compileAST_params_eq,
    fun n => ?_, fun v => ?_, fun tm => rfl, rfl, rfl⟩
  · simp [SourceAst.compileAST]
  · simp [SourceAst.compileAST]

/-- Witness for C2 at a concrete tree, discharging the determinism
hypotheses. -/
theorem claim_C2_witness :
    SourceAst.compileAST (.operator "=" (.column "a") (.literal (.vbool true)))
      = SourceAst.compileAST (.operator "=" (.column "a") (.literal (.vbool true))) :=
  claim_C2_ast_compiler.1 _ _ _ rfl rfl

namespace SourceSchema

/-- Helper: a single conforming field value survives the storage
round trip. -/
theorem roundtrip_field (t : ZType) (v : JsVal) (h : matchesType t v = true) :
    parseStorageValue (some (unwrapField t)) (storageValue v) = v := by
  unfold matchesType at h
  rcases Bool.or_eq_true_iff.mp h with hnull | hmatch
  · have : v = JsVal.vnull := by
      cases v <;> simp_all
    subst this
    cases unwrapField t <;> rfl
  · cases hu : unwrapField t <;> cases v <;>
      simp_all [parseStorageValue, storageValue] <;>
      cases ‹Bool› <;> rfl

end SourceSchema

/-- C9: for every record whose fields conform to its schema (strings,
numbers, Date-typed fields holding Date values, boolean-typed fields
holding booleans), transformFromStorage after transformForStorage returns
the original record — Dates survive via ISO-8601 strings, booleans via 0/1
integers. -/
theorem claim_C9_storage_roundtrip (shape : List (String × SourceSchema.ZType))
    (data : List (String × JsVal)) (h : SourceSchema.conforms shape data = true) :
    SourceSchema.transformFromStorage (SourceSchema.transformForStorage data) shape
      = data := by
  induction data with
  | nil => rfl
  | cons e rest ih =>
      simp only [SourceSchema.conforms, List.all_cons, Bool.and_eq_true] at h
      obtain ⟨he, hrest⟩ := h
      simp only [SourceSchema.transformForStorage, SourceSchema.transformFromStorage,
        List.map_cons, List.map_map]
      rw [List.cons.injEq]
      constructor
      · cases hf : shape.find? (fun p => p.1 == e.1) with
        | none => simp [hf] at he
        | some p =>
            rw [hf] at he
            exact congrArg (e.1, ·) (SourceSchema.roundtrip_field p.2 e.2 he)
      · rw [← List.map_map]
        exact ih hrest

/-- Witness for C9 on a concrete conforming record with a Date, a boolean,
a string and a number field. -/
theorem claim_C9_witness :
    SourceSchema.conforms
        [("when", SourceSchema.ZType.zoptional SourceSchema.ZType.zdate),
          ("ok", SourceSchema.ZType.zboolean), ("n", SourceSchema.ZType.znumber),
          ("s", SourceSchema.ZType.zstring)]
        [("when", JsVal.vdate 1735689600000), ("ok", JsVal.vbool true),
          ("n", JsVal.vint 3), ("s", JsVal.vstr "x")] = true
    ∧ SourceSchema.transformFromStorage
        (SourceSchema.transformForStorage
          [("when", JsVal.vdate 1735689600000), ("ok", JsVal.vbool true),
            ("n", JsVal.vint 3), ("s", JsVal.vstr "x")])
        [("when", SourceSchema.ZType.zoptional SourceSchema.ZType.zdate),
          ("ok", SourceSchema.ZType.zboolean), ("n", SourceSchema.ZType.znumber),
          ("s", SourceSchema.ZType.zstring)]
      = [("when", JsVal.vdate 1735689600000), ("ok", JsVal.vbool true),
          ("n", JsVal.vint 3), ("s", JsVal.vstr "x")] :=
  ⟨by decide, claim_C9_storage_roundtrip _ _ (by decide)⟩

/-- C8: for every polling subscription, the first tick delivers the result
immediately unless suppressed by configuration; two consecutive ticks with
no intervening mutation (equal fingerprints) never redeliver; and a
mutation that changes the scope's row count, max primary key or change
sequence triggers exactly one redelivery carrying the post-mutation result
set. -/
theorem claim_C8_subscribe_polling :
    (∀ (cfg : SpecReactivity.SubCfg) (pred : SpecReactivity.Row → Bool)
        (db : SpecReactivity.DBState), cfg.immediate = true →
      SpecReactivity.tick cfg pred db SpecReactivity.SubState.fresh
        = (⟨some (SpecReactivity.fingerprintOf cfg pred db)⟩,
            some (SpecReactivity.scopeRows pred db)))
    ∧ (∀ (cfg : SpecReactivity.SubCfg) (pred : SpecReactivity.Row → Bool)
        (db : SpecReactivity.DBState), cfg.immediate = false →
      (SpecReactivity.tick cfg pred db SpecReactivity.SubState.fresh).2 = none)
    ∧ (∀ (cfg : SpecReactivity.SubCfg) (pred : SpecReactivity.Row → Bool)
        (db : SpecReactivity.DBState) (s : SpecReactivity.SubState),
      (SpecReactivity.tick cfg pred db
        (SpecReactivity.tick cfg pred db s).1).2 = none)
    ∧ (∀ (cfg : SpecReactivity.SubCfg) (pred : SpecReactivity.Row → Bool)
        (db db' : SpecReactivity.DBState) (s : SpecReactivity.SubState),
      s.last = some (SpecReactivity.fingerprintOf cfg pred db) →
      ((SpecReactivity.fingerprintOf cfg pred db').count
          ≠ (SpecReactivity.fingerprintOf cfg pred db).count
        ∨ (SpecReactivity.fingerprintOf cfg pred db').maxId
            ≠ (SpecReactivity.fingerprintOf cfg pred db).maxId
        ∨ (SpecReactivity.fingerprintOf cfg pred db').changeSeq
            ≠ (SpecReactivity.fingerprintOf cfg pred db).changeSeq) →
      (SpecReactivity.tick cfg pred db' s).2
          = some (SpecReactivity.scopeRows pred db')
        ∧ (SpecReactivity.tick cfg pred db'
            (SpecReactivity.tick cfg pred db' s).1).2 = none) := by
  refine ⟨fun cfg pred db h => ?_, fun cfg pred db h => ?_,
    fun cfg pred db s => ?_, fun cfg pred db db' s hs hdiff => ⟨?_, ?_⟩⟩
  · simp [SpecReactivity.tick, SpecReactivity.SubState.fresh, h]
  · simp [SpecReactivity.tick, SpecReactivity.SubState.fresh, h]
  · cases s with
    | mk last =>
      cases last <;> simp [SpecReactivity.tick]
  · have hne : SpecReactivity.fingerprintOf cfg pred db'
        ≠ SpecReactivity.fingerprintOf cfg pred db := by
      intro he
      rcases hdiff with h | h | h <;> exact h (by rw [he])
    simp [SpecReactivity.tick, hs, hne]
  · cases s with
    | mk last =>
      simp at hs
      subst hs
      simp [SpecReactivity.tick]

/-- Witness for C8: a concrete subscription over an initially empty table;
inserting an in-scope row changes the fingerprint and triggers exactly one
redelivery with the inserted row. -/
theorem claim_C8_witness :
    (SpecReactivity.tick ⟨true, false⟩ (fun _ => true) ⟨[], 0⟩
        SpecReactivity.SubState.fresh
      = (⟨some ⟨0, none, none⟩⟩, some []))
    ∧ ((SpecReactivity.tick ⟨true, false⟩ (fun _ => true)
          (SpecReactivity.insertRow ⟨[], 0⟩ ⟨1, "a"⟩) ⟨some ⟨0, none, none⟩⟩).2
        = some [⟨1, "a"⟩]
      ∧ (SpecReactivity.tick ⟨true, false⟩ (fun _ => true)
          (SpecReactivity.insertRow ⟨[], 0⟩ ⟨1, "a"⟩)
          (SpecReactivity.tick ⟨true, false⟩ (fun _ => true)
            (SpecReactivity.insertRow ⟨[], 0⟩ ⟨1, "a"⟩) ⟨some ⟨0, none, none⟩⟩).1).2
        = none) :=
  ⟨claim_C8_subscribe_polling.1 _ _ _ rfl,
    claim_C8_subscribe_polling.2.2.2 _ _ ⟨[], 0⟩ _ _ (by decide) (by decide)⟩

/-- C4 (code evaluation at the failing input): parseRelationsConfig treats
the config key as the navigation-field name and derives the foreign key by
APPENDING `_id`, so the registry built from `{books: {author_id:
"authors"}}` carries foreignKey `author_id_id`, and resolving the
condition `{author: entityWithId 7}` on `books` targets the non-existent
column `author_id_id` — not `author_id` as the claim (and the repository's
own README, types.ts documentation and entity.test.ts) requires. -/
theorem claim_C4_fk_suffix_divergence :
    SourceSchema.parseRelationsConfig [("books", [("author_id", "authors")])]
        ["books", "authors"]
      = Except.ok
          [⟨SourceSchema.RelType.belongsTo, "books", "authors", "author_id", "author_id_id"⟩,
            ⟨SourceSchema.RelType.oneToMany, "authors", "books", "books", ""⟩]
    ∧ SourceSchema.conditionResolver
          [⟨SourceSchema.RelType.belongsTo, "books", "authors", "author_id", "author_id_id"⟩,
            ⟨SourceSchema.RelType.oneToMany, "authors", "books", "books", ""⟩]
          "books" [("author", SourceSchema.CondVal.entity 7)]
        = [("author_id_id", SourceSchema.CondVal.plain (JsVal.vint 7))]
    ∧ "author_id_id" ≠ "author_id" := by
  refine ⟨rfl, by decide, by decide⟩

/-- C5: a non-empty `$in` array compiles to `IN (?, ..., ?)` with one
placeholder per element and the elements appended to params in order; an
empty `$in` array compiles to the unconditionally false `1 = 0`, and an
empty `$notIn` array (fluent builder core) compiles to the unconditionally
true `1 = 1` — never the invalid SQL `IN ()`. -/
theorem claim_C5_in_notin_compilation :
    (∀ (tu : List (String × String)) (pa key : String) (vs : List JsVal),
      vs ≠ [] →
      SourceProxy.compileWhereEntry tu pa (key, .obj [("$in", .oarr vs)])
        = Except.ok
            ([SourceProxy.resolveFieldRef tu pa key ++ " IN ("
                ++ SourceProxy.placeholders vs.length ++ ")"],
              vs.map SourceProxy.ProxyParam.pv))
    ∧ (∀ (tu : List (String × String)) (pa key : String),
      SourceProxy.compileWhereEntry tu pa (key, .obj [("$in", .oarr [])])
        = Except.ok (["1 = 0"], []))
    ∧ (∀ (n : Nat), n ≠ 0 → SourceProxy.placeholders n
        = String.intercalate ", " (List.replicate n "?"))
    ∧ (∀ (col : String) (vs : List JsVal), vs ≠ [] →
      SpecBuilder.builderOpFragment col "$in" (.oarr vs)
        = Except.ok
            (col ++ " IN (" ++ SourceProxy.placeholders vs.length ++ ")", vs))
    ∧ (∀ (col : String), SpecBuilder.builderOpFragment col "$in" (.oarr [])
        = Except.ok ("1 = 0", []))
    ∧ (∀ (col : String) (vs : List JsVal), vs ≠ [] →
      SpecBuilder.builderOpFragment col "$notIn" (.oarr vs)
        = Except.ok
            (col ++ " NOT IN (" ++ SourceProxy.placeholders vs.length ++ ")", vs))
    ∧ (∀ (col : String), SpecBuilder.builderOpFragment col "$notIn" (.oarr [])
        = Except.ok ("1 = 1", [])) := by
  refine ⟨fun tu pa key vs hvs => ?_, fun tu pa key => rfl, fun n _ => rfl,
    fun col vs hvs => ?_, fun col => rfl, fun col vs hvs => ?_, fun col => rfl⟩
  · have hne : vs.isEmpty = false := by
      cases vs with
      | nil => exact absurd rfl hvs
      | cons a l => rfl
    simp [SourceProxy.compileWhereEntry, SourceProxy.compileOps, hne, Except.map]
  · cases vs with
    | nil => exact absurd rfl hvs
    | cons a l => rfl
  · cases vs with
    | nil => exact absurd rfl hvs
    | cons a l => rfl

/-- Witness for C5 at the spec's own example: `{name: {$in: ["Alice",
"Bob"]}}` compiles to `"name" IN (?, ?)` over two params, and the empty
variants produce the constant fragments. -/
theorem claim_C5_witness :
    SourceProxy.compileWhereEntry [("t1", "users")] "t1"
        ("name", .obj [("$in", .oarr [JsVal.vstr "Alice", JsVal.vstr "Bob"])])
      = Except.ok (["\"t1\".\"name\" IN (?, ?)"],
          [SourceProxy.ProxyParam.pv (JsVal.vstr "Alice"),
            SourceProxy.ProxyParam.pv (JsVal.vstr "Bob")])
    ∧ SpecBuilder.builderOpFragment "\"name\"" "$notIn" (.oarr [JsVal.vstr "Amazon"])
      = Except.ok ("\"name\" NOT IN (?)", [JsVal.vstr "Amazon"])
    ∧ SpecBuilder.builderOpFragment "\"name\"" "$notIn" (.oarr [])
      = Except.ok ("1 = 1", []) := by
  refine ⟨?_, ?_, claim_C5_in_notin_compilation.2.2.2.2.2.2 _⟩
  · have := claim_C5_in_notin_compilation.1 [("t1", "users")] "t1" "name"
      [JsVal.vstr "Alice", JsVal.vstr "Bob"] (by decide)
    rw [this]
    rfl
  · have := claim_C5_in_notin_compilation.2.2.2.2.2.1 "\"name\""
      [JsVal.vstr "Amazon"] (by decide)
    rw [this]
    rfl

namespace SourceProxy

/-- Helper: the generated alias strings are injective in the counter. -/
theorem tAlias_inj {m n : Nat} (h : "t" ++ natToString m = "t" ++ natToString n) :
    m = n := by
  have hd := congrArg String.data h
  simp only [String.data_append] at hd
  have h2 : (natToString m).data = (natToString n).data := by simpa using hd
  exact natToString_injective (congrArg String.mk h2)

/-- Helper: appending an entry under a key that is not the head key skips
the head. -/
theorem mapAppendEntry_cons_ne (p : String × List AliasEntry)
    (m : List (String × List AliasEntry)) (tbl : String) (e : AliasEntry)
    (h : p.1 ≠ tbl) :
    mapAppendEntry (p :: m) tbl e = p :: mapAppendEntry m tbl e := by
  have hb : (p.1 == tbl) = false := by simpa using h
  simp only [mapAppendEntry, List.any_cons, hb, Bool.false_or]
  by_cases ha : m.any (fun q => q.1 == tbl)
  · rw [if_pos ha, if_pos ha]
    simp only [List.map_cons, hb, if_false]
    exact congrArg (· :: _) (by
      cases p with
      | mk a b => simp [show (a == tbl) = false from hb])
  · rw [if_neg ha, if_neg ha]
    simp

/-- Helper: aliasesOf distributes over cons. -/
theorem aliasesOf_cons (p : String × List AliasEntry)
    (m : List (String × List AliasEntry)) :
    aliasesOf (p :: m) = p.2.map AliasEntry.aliasName ++ aliasesOf m := by
  simp [aliasesOf]

/-- Helper: recording a new entry permutes the alias list to the new alias
consed onto the old ones (the alias-map keys being distinct). -/
theorem aliasesOf_mapAppendEntry (m : List (String × List AliasEntry))
    (tbl : String) (e : AliasEntry) (hk : (m.map Prod.fst).Nodup) :
    (aliasesOf (mapAppendEntry m tbl e)).Perm (e.aliasName :: aliasesOf m) := by
  induction m with
  | nil => simp [mapAppendEntry, aliasesOf]
  | cons p rest ih =>
      by_cases hp : p.1 = tbl
      · have hb : (p.1 == tbl) = true := by simpa using hp
        have hany : ((p :: rest).any fun q => q.1 == tbl) = true := by
          simp [List.any_cons, hb]
        have hrest : rest.map (fun q => if (q.1 == tbl) = true then (q.1, q.2 ++ [e]) else q)
            = rest := by
          simp only [List.map_cons, List.nodup_cons] at hk
          have : ∀ q ∈ rest, (fun q => if (q.1 == tbl) = true then (q.1, q.2 ++ [e]) else q) q
              = id q := by
            intro q hq
            have hqt : q.1 ≠ tbl := by
              intro hq1
              have hmem : q.1 ∈ rest.map Prod.fst := List.mem_map_of_mem Prod.fst hq
              rw [hq1, ← hp] at hmem
              exact hk.1 hmem
            simp [hqt]
          rw [List.map_congr_left this, List.map_id]
        rw [mapAppendEntry, hany, if_pos rfl]
        simp only [List.map_cons]
        rw [if_pos hb, hrest, aliasesOf_cons, aliasesOf_cons]
        simp only [List.map_append, List.map_cons, List.map_nil]
        have h1 : p.2.map AliasEntry.aliasName ++ [e.aliasName] ++ aliasesOf rest
            = p.2.map AliasEntry.aliasName ++ (e.aliasName :: aliasesOf rest) := by
          rw [List.append_assoc]
          rfl
        rw [h1]
        exact List.perm_middle
      · rw [mapAppendEntry_cons_ne p rest tbl e hp, aliasesOf_cons, aliasesOf_cons]
        have hk2 : (rest.map Prod.fst).Nodup := by
          simp only [List.map_cons, List.nodup_cons] at hk
          exact hk.2
        exact (List.Perm.append_left _ (ih hk2)).trans List.perm_middle

/-- Helper: recording an entry preserves or appends the key list. -/
theorem keys_mapAppendEntry (m : List (String × List AliasEntry))
    (tbl : String) (e : AliasEntry) :
    (mapAppendEntry m tbl e).map Prod.fst
      = if m.any (fun p => p.1 == tbl) then m.map Prod.fst
        else m.map Prod.fst ++ [tbl] := by
  by_cases h : m.any (fun p => p.1 == tbl)
  · rw [mapAppendEntry, if_pos h, if_pos h, List.map_map]
    refine List.map_congr_left ?_
    intro p _
    by_cases hp : p.1 = tbl
    · simp [hp]
    · simp [hp]
  · rw [mapAppendEntry, if_neg h, if_neg h, List.map_append]
    rfl

/-- Helper: one table access preserves the context invariant and hands out
an alias distinct from every previously assigned one. -/
theorem accessTable_inv (ctx : ProxyCtx) (t : String) (h : ctxInv ctx) :
    ctxInv (accessTable ctx t).2
      ∧ (accessTable ctx t).1.aliasName ∉ aliasesOf ctx.aliasMap := by
  obtain ⟨hnd, hbound, hkeys⟩ := h
  have hfresh : ("t" ++ natToString (ctx.aliasCounter + 1)) ∉ aliasesOf ctx.aliasMap := by
    intro hmem
    obtain ⟨k, hk1, hk2, hk3⟩ := hbound _ hmem
    have := tAlias_inj hk3.symm
    omega
  have hperm := aliasesOf_mapAppendEntry ctx.aliasMap t
    ⟨t, "t" ++ natToString (ctx.aliasCounter + 1)⟩ hkeys
  refine ⟨⟨?_, ?_, ?_⟩, hfresh⟩
  · refine hperm.nodup_iff.mpr ?_
    exact List.nodup_cons.mpr ⟨hfresh, hnd⟩
  · intro a ha
    have ha2 := hperm.mem_iff.mp ha
    rcases List.mem_cons.mp ha2 with h1 | h1
    · exact ⟨ctx.aliasCounter + 1, by omega, by simp [accessTable], h1⟩
    · obtain ⟨k, hk1, hk2, hk3⟩ := hbound a h1
      exact ⟨k, hk1, by simp [accessTable]; omega, hk3⟩
  · show ((mapAppendEntry ctx.aliasMap t _).map Prod.fst).Nodup
    rw [keys_mapAppendEntry]
    by_cases hany : ctx.aliasMap.any (fun p => p.1 == t)
    · rw [if_pos hany]
      exact hkeys
    · rw [if_neg hany]
      have ht : t ∉ ctx.aliasMap.map Prod.fst := by
        intro hmem
        obtain ⟨p, hp, hp2⟩ := List.mem_map.mp hmem
        exact hany (List.any_eq_true.mpr ⟨p, hp, by simp [hp2]⟩)
      simp [List.nodup_append, hkeys, ht]

/-- Helper: the initial context satisfies the invariant. -/
theorem ctxInv_init : ctxInv ProxyCtx.init := by
  refine ⟨List.nodup_nil, ?_, List.nodup_nil⟩
  intro a ha
  simp [aliasesOf, ProxyCtx.init] at ha

/-- Helper: any access sequence from the initial context keeps the
invariant. -/
theorem accessSeq_inv (tables : List String) (ctx : ProxyCtx) (h : ctxInv ctx) :
    ctxInv (accessSeq tables ctx) := by
  induction tables generalizing ctx with
  | nil => exact h
  | cons t rest ih =>
      exact ih _ (accessTable_inv ctx t h).1

end SourceProxy

/-- C7: within one proxy-query compilation, every table access through the
context proxy is assigned a fresh alias distinct from all previously
assigned aliases — including when the same table name is accessed twice
(each access yields an independent alias over the same underlying
table). -/
theorem claim_C7_fresh_aliases (tables : List String) (t : String) :
    (SourceProxy.aliasesOf
        (SourceProxy.accessSeq tables SourceProxy.ProxyCtx.init).aliasMap).Nodup
    ∧ (SourceProxy.accessTable
          (SourceProxy.accessSeq tables SourceProxy.ProxyCtx.init) t).1.aliasName
        ∉ SourceProxy.aliasesOf
            (SourceProxy.accessSeq tables SourceProxy.ProxyCtx.init).aliasMap := by
  have hinv := SourceProxy.accessSeq_inv tables SourceProxy.ProxyCtx.init
    SourceProxy.ctxInv_init
  exact ⟨hinv.1, (SourceProxy.accessTable_inv _ t hinv).2⟩

/-- Helper: takeWhile over a prefix wholly satisfying the predicate. -/
theorem takeWhile_append_all {α : Type} (p : α → Bool) (xs ys : List α)
    (h : ∀ x ∈ xs, p x = true) :
    (xs ++ ys).takeWhile p = xs ++ ys.takeWhile p := by
  induction xs with
  | nil => rfl
  | cons a l ih =>
      simp only [List.cons_append, List.takeWhile_cons, h a (by simp)]
      rw [ih (fun x hx => h x (by simp [hx]))]
      simp

/-- Helper: dropWhile skips a prefix wholly satisfying the predicate. -/
theorem dropWhile_append_all {α : Type} (p : α → Bool) (xs ys : List α)
    (h : ∀ x ∈ xs, p x = true) :
    (xs ++ ys).dropWhile p = ys.dropWhile p := by
  induction xs with
  | nil => rfl
  | cons a l ih =>
      simp only [List.cons_append, List.dropWhile_cons, h a (by simp)]
      exact ih (fun x hx => h x (by simp [hx]))

namespace SourceProxy

/-- Helper: the quoted-pattern match parses a rendered column reference
back into its alias and column, for quote-free nonempty components. -/
theorem parseQualifiedKey_qRef (a b : String) (ha : a.data ≠ [])
    (ha2 : '"' ∉ a.data) (hb : b.data ≠ []) (hb2 : '"' ∉ b.data) :
    parseQualifiedKey (qRef a b) = some (a, b) := by
  have hdata : (qRef a b).data
      = '"' :: (a.data ++ '"' :: '.' :: '"' :: (b.data ++ ['"'])) := by
    simp [qRef, String.data_append]
  have hpa : ∀ x ∈ a.data, (x != '"') = true := by
    intro x hx
    simp only [bne_iff_ne, ne_eq]
    intro hcontra
    exact ha2 (hcontra ▸ hx)
  have hpb : ∀ x ∈ b.data, (x != '"') = true := by
    intro x hx
    simp only [bne_iff_ne, ne_eq]
    intro hcontra
    exact hb2 (hcontra ▸ hx)
  rw [parseQualifiedKey, hdata]
  simp only
  rw [takeWhile_append_all _ a.data _ hpa, dropWhile_append_all _ a.data _ hpa]
  have hq : (('"' : Char) != '"') = false := by decide
  simp only [List.takeWhile_cons, List.dropWhile_cons, hq, List.append_nil,
    Bool.false_eq_true, if_false]
  rw [takeWhile_append_all _ b.data _ hpb, dropWhile_append_all _ b.data _ hpb]
  simp only [List.takeWhile_cons, List.dropWhile_cons, hq, List.append_nil,
    Bool.false_eq_true, if_false]
  simp [ha, hb]

end SourceProxy

/-- C10 (amended): for every ColumnNode whose alias is registered in the
compilation's alias table and whose column name is nonempty and
double-quote-free (true of every schema-declared column), the stringified
key `"alias"."column"` is parsed back by the compiler's quoted-pattern
match to the same alias and column, and the where/orderBy field reference
is the node's own qualified reference — not re-scoped to the primary
table. -/
theorem claim_C10_column_key_roundtrip (tu : List (String × String))
    (pa : String) (c : SourceProxy.ColumnNode)
    (halias : (SourceProxy.lookupStr tu c.aliasName).isSome = true)
    (h1 : c.column.data ≠ []) (h2 : '"' ∉ c.column.data)
    (h3 : c.aliasName.data ≠ []) (h4 : '"' ∉ c.aliasName.data) :
    SourceProxy.parseQualifiedKey c.toStr = some (c.aliasName, c.column)
    ∧ SourceProxy.resolveFieldRef tu pa c.toStr = c.toStr := by
  have hparse := SourceProxy.parseQualifiedKey_qRef c.aliasName c.column h3 h4 h1 h2
  refine ⟨hparse, ?_⟩
  rw [SourceProxy.resolveFieldRef]
  rw [show SourceProxy.ColumnNode.toStr c = SourceProxy.qRef c.aliasName c.column from rfl,
    hparse]
  simp [halias]

/-- Witness for C10 at a concrete registered node. -/
theorem claim_C10_witness :
    SourceProxy.parseQualifiedKey
        (SourceProxy.ColumnNode.toStr ⟨"books", "title", "t2"⟩)
      = some ("t2", "title")
    ∧ SourceProxy.resolveFieldRef [("t1", "authors"), ("t2", "books")] "t1"
        (SourceProxy.ColumnNode.toStr ⟨"books", "title", "t2"⟩)
      = SourceProxy.ColumnNode.toStr ⟨"books", "title", "t2"⟩ :=
  claim_C10_column_key_roundtrip [("t1", "authors"), ("t2", "books")] "t1"
    ⟨"books", "title", "t2"⟩ (by decide) (by decide) (by decide) (by decide) (by decide)

/-- C10 (counterexample to the original claim): a ColumnNode whose column
name contains a double quote stringifies to a key the quoted-pattern match
cannot parse, so the compiler re-scopes the condition to the primary
table's alias instead of the node's own alias. -/
theorem claim_C10_counterexample :
    SourceProxy.parseQualifiedKey
        (SourceProxy.ColumnNode.toStr ⟨"books", "a\"b", "t2"⟩) = none
    ∧ SourceProxy.resolveFieldRef [("t1", "authors"), ("t2", "books")] "t1"
        (SourceProxy.ColumnNode.toStr ⟨"books", "a\"b", "t2"⟩)
      = SourceProxy.qRef "t1" (SourceProxy.ColumnNode.toStr ⟨"books", "a\"b", "t2"⟩)
    ∧ SourceProxy.qRef "t1" (SourceProxy.ColumnNode.toStr ⟨"books", "a\"b", "t2"⟩)
      ≠ SourceProxy.ColumnNode.toStr ⟨"books", "a\"b", "t2"⟩ := by
  refine ⟨by decide, by decide, by decide⟩

namespace SourceProxy

/-- Helper: compileOps commutes with a scalar renaming of the operands —
the emitted fragments (and any error) are unchanged and every bound param
is renamed pointwise. -/
theorem compileOps_mapScalars (f : JsVal → JsVal) (fr : String)
    (ops : List (String × Operand)) :
    compileOps fr (ops.map (fun o => (o.1,
        match o.2 with
        | Operand.oarr vs => Operand.oarr (vs.map f)
        | Operand.oscalar v => Operand.oscalar (f v))))
      = (compileOps fr ops).map (fun pr => (pr.1, pr.2.map (mapParam f))) := by
  induction ops with
  | nil => rfl
  | cons o rest ih =>
      obtain ⟨opKey, operand⟩ := o
      simp only [List.map_cons]
      by_cases hin : opKey = "$in"
      · subst hin
        cases operand with
        | oarr vs =>
            simp only [compileOps, if_pos rfl, ih]
            cases hvs : vs.isEmpty with
            | true =>
                have : vs = [] := by
                  cases vs with
                  | nil => rfl
                  | cons a l => simp at hvs
                subst this
                cases compileOps fr rest <;> rfl
            | false =>
                have hmapped : (vs.map f).isEmpty = false := by
                  cases vs with
                  | nil => simp at hvs
                  | cons a l => rfl
                simp only [hmapped, hvs, Bool.false_eq_true, if_false, List.length_map]
                cases compileOps fr rest with
                | error e => rfl
                | ok pr =>
                    simp [Except.map, mapParam, Function.comp]
        | oscalar v =>
            simp only [compileOps, if_pos rfl]
            rfl
      · cases hop : opMapLookup opKey with
        | none =>
            simp only [compileOps, if_neg hin, hop]
            rfl
        | some sqlOp =>
            simp only [compileOps, if_neg hin, hop, ih]
            cases operand with
            | oarr vs =>
                cases compileOps fr rest with
                | error e => rfl
                | ok pr => rfl
            | oscalar v =>
                cases compileOps fr rest with
                | error e => rfl
                | ok pr => rfl

end SourceProxy

namespace SourceProxy

/-- Helper: a scalar renaming never changes the emitted fragments (or the
error) of one where entry. -/
theorem compileWhereEntry_mapScalars_sql (f : JsVal → JsVal)
    (tu : List (String × String)) (pa : String) (key : String) (wv : WhereVal) :
    (compileWhereEntry tu pa (key, mapWhereVal f wv)).map Prod.fst
      = (compileWhereEntry tu pa (key, wv)).map Prod.fst := by
  cases wv with
  | col c => rfl
  | scalar v => rfl
  | arr vs =>
      cases hvs : vs.isEmpty with
      | true =>
          have : vs = [] := by
            cases vs with
            | nil => rfl
            | cons a l => simp at hvs
          subst this
          rfl
      | false =>
          have hmapped : (vs.map f).isEmpty = false := by
            cases vs with
            | nil => simp at hvs
            | cons a l => rfl
          simp [compileWhereEntry, mapWhereVal, hvs, hmapped, Except.map]
  | obj ops =>
      have h := compileOps_mapScalars f (resolveFieldRef tu pa key) ops
      show (compileOps (resolveFieldRef tu pa key)
          (ops.map (fun o => (o.1,
            match o.2 with
            | Operand.oarr vs => Operand.oarr (vs.map f)
            | Operand.oscalar v => Operand.oscalar (f v))))).map Prod.fst
        = (compileOps (resolveFieldRef tu pa key) ops).map Prod.fst
      rw [h]
      cases compileOps (resolveFieldRef tu pa key) ops with
      | error e => rfl
      | ok pr => rfl

/-- Helper: a scalar renaming never changes the emitted where fragments (or
the error) of the whole where map. -/
theorem compileWhereAll_mapScalars_sql (f : JsVal → JsVal)
    (tu : List (String × String)) (pa : String)
    (wm : List (String × WhereVal)) :
    (compileWhereAll tu pa (wm.map (fun e => (e.1, mapWhereVal f e.2)))).map Prod.fst
      = (compileWhereAll tu pa wm).map Prod.fst := by
  induction wm with
  | nil => rfl
  | cons e rest ih =>
      obtain ⟨k, wv⟩ := e
      have h1 := compileWhereEntry_mapScalars_sql f tu pa k wv
      simp only [List.map_cons, compileWhereAll]
      cases he2 : compileWhereEntry tu pa (k, mapWhereVal f wv) with
      | error err2 =>
          cases he : compileWhereEntry tu pa (k, wv) with
          | error err =>
              rw [he2, he] at h1
              simp only [Except.map] at h1
              cases h1
              rfl
          | ok pr =>
              rw [he2, he] at h1
              simp [Except.map] at h1
      | ok pr2 =>
          cases he : compileWhereEntry tu pa (k, wv) with
          | error err =>
              rw [he2, he] at h1
              simp [Except.map] at h1
          | ok pr =>
              rw [he2, he] at h1
              simp only [Except.map, Except.ok.injEq] at h1
              cases hr2 : compileWhereAll tu pa
                  (rest.map (fun e => (e.1, mapWhereVal f e.2))) with
              | error e2 =>
                  cases hr : compileWhereAll tu pa rest with
                  | error e3 =>
                      rw [hr2, hr] at ih
                      simp only [Except.map] at ih
                      cases ih
                      rfl
                  | ok q =>
                      rw [hr2, hr] at ih
                      simp [Except.map] at ih
              | ok q2 =>
                  cases hr : compileWhereAll tu pa rest with
                  | error e3 =>
                      rw [hr2, hr] at ih
                      simp [Except.map] at ih
                  | ok q =>
                      rw [hr2, hr] at ih
                      simp only [Except.map, Except.ok.injEq] at ih
                      show Except.ok (pr2.1 ++ q2.1) = Except.ok (pr.1 ++ q.1)
                      rw [h1, ih]

/-- Helper: a scalar renaming never changes one select part's fragment. -/
theorem compileSelectEntry_mapScalars_sql (f : JsVal → JsVal)
    (e : String × SelectVal) :
    (compileSelectEntry (e.1,
      match e.2 with
      | SelectVal.col c => SelectVal.col c
      | SelectVal.lit v => SelectVal.lit (f v))).1
      = (compileSelectEntry e).1 := by
  obtain ⟨n, sv⟩ := e
  cases sv with
  | col c => rfl
  | lit v => rfl

/-- Helper: the emitted SQL text of a proxy query is invariant under any
renaming of the user-supplied scalar values (select literals and where
operands) — values never leak into the SQL string; so is the error
behavior. -/
theorem compileProxyQuery_mapScalars_sql (f : JsVal → JsVal)
    (qr : ProxyQueryResult) (am : List (String × List AliasEntry)) :
    (compileProxyQuery (mapScalarsQ f qr) am).map Prod.fst
      = (compileProxyQuery qr am).map Prod.fst := by
  have hsel : ((mapScalarsQ f qr).select.map compileSelectEntry).map Prod.fst
      = (qr.select.map compileSelectEntry).map Prod.fst := by
    simp only [mapScalarsQ, List.map_map]
    refine List.map_congr_left ?_
    intro e _
    exact compileSelectEntry_mapScalars_sql f e
  simp only [compileProxyQuery, mapScalarsQ]
  cases htu : tablesUsedOf am with
  | nil => rfl
  | cons hd rest =>
      obtain ⟨pa, pt⟩ := hd
      cases hj : compileJoins ((pa, pt) :: rest) pa qr.join with
      | error e =>
          simp only [hj]
          rfl
      | ok js =>
          simp only [hj]
          have hw := compileWhereAll_mapScalars_sql f ((pa, pt) :: rest) pa qr.whereMap
          cases hw2 : compileWhereAll ((pa, pt) :: rest) pa
              (qr.whereMap.map (fun e => (e.1, mapWhereVal f e.2))) with
          | error err2 =>
              cases hw1 : compileWhereAll ((pa, pt) :: rest) pa qr.whereMap with
              | error err =>
                  rw [hw2, hw1] at hw
                  simp only [Except.map] at hw
                  cases hw
                  rfl
              | ok q =>
                  rw [hw2, hw1] at hw
                  simp [Except.map] at hw
          | ok q2 =>
              cases hw1 : compileWhereAll ((pa, pt) :: rest) pa qr.whereMap with
              | error err =>
                  rw [hw2, hw1] at hw
                  simp [Except.map] at hw
              | ok q =>
                  rw [hw2, hw1] at hw
                  simp only [Except.map, Except.ok.injEq] at hw
                  show Except.ok (assembleSql
                      (((qr.select.map (fun e => (e.1,
                        match e.2 with
                        | SelectVal.col c => SelectVal.col c
                        | SelectVal.lit v => SelectVal.lit (f v)))).map
                          compileSelectEntry).map Prod.fst) pa pt js q2.1
                      (qr.orderBy.map (fun p =>
                        resolveFieldRef ((pa, pt) :: rest) pa p.1 ++ " " ++ p.2.upper))
                      (qr.groupBy.map (fun c => qRef c.aliasName c.column))
                      qr.limit qr.offset)
                    = Except.ok (assembleSql
                      ((qr.select.map compileSelectEntry).map Prod.fst) pa pt js q.1
                      (qr.orderBy.map (fun p =>
                        resolveFieldRef ((pa, pt) :: rest) pa p.1 ++ " " ++ p.2.upper))
                      (qr.groupBy.map (fun c => qRef c.aliasName c.column))
                      qr.limit qr.offset)
                  simp only [mapScalarsQ] at hsel
                  rw [hw, hsel]

/-- Helper: on success, the params of a condition object are exactly its
operand scalars in entry order. -/
theorem compileOps_params (fr : String) (ops : List (String × Operand))
    (pr : List String × List ProxyParam) (h : compileOps fr ops = .ok pr) :
    pr.2 = ops.flatMap (fun o =>
      if o.1 = "$in" then
        match o.2 with
        | Operand.oarr vs => if vs.isEmpty then [] else vs.map ProxyParam.pv
        | Operand.oscalar _ => []
      else
        match opMapLookup o.1 with
        | some _ =>
            [match o.2 with
              | Operand.oarr vs => ProxyParam.parr vs
              | Operand.oscalar v => ProxyParam.pv v]
        | none => []) := by
  induction ops generalizing pr with
  | nil =>
      simp only [compileOps, Except.ok.injEq] at h
      rw [← h]
      rfl
  | cons o rest ih =>
      obtain ⟨opKey, operand⟩ := o
      by_cases hin : opKey = "$in"
      · subst hin
        cases operand with
        | oscalar v =>
            simp [compileOps] at h
        | oarr vs =>
            simp only [compileOps, eq_self_iff_true, if_true] at h
            cases hr : compileOps fr rest with
            | error e =>
                rw [hr] at h
                simp [Except.map] at h
            | ok pr2 =>
                rw [hr] at h
                simp only [Except.map, Except.ok.injEq] at h
                rw [← h]
                simp only [List.flatMap_cons, if_pos rfl]
                rw [ih pr2 hr]
                cases hvs : vs.isEmpty <;> simp [hvs]
      · cases hop : opMapLookup opKey with
        | none =>
            simp [compileOps, hin, hop] at h
        | some sqlOp =>
            simp only [compileOps, if_neg hin, hop] at h
            cases hr : compileOps fr rest with
            | error e =>
                rw [hr] at h
                simp [Except.map] at h
            | ok pr2 =>
                rw [hr] at h
                simp only [Except.map, Except.ok.injEq] at h
                rw [← h]
                simp only [List.flatMap_cons, if_neg hin, hop]
                rw [ih pr2 hr]
                simp

/-- Helper: on success, the params of one where entry are exactly its
scalars (with the direct-equality Date normalization). -/
theorem compileWhereEntry_params (tu : List (String × String)) (pa : String)
    (key : String) (wv : WhereVal) (pr : List String × List ProxyParam)
    (h : compileWhereEntry tu pa (key, wv) = .ok pr) :
    pr.2 = whereValScalars wv := by
  cases wv with
  | col c =>
      simp only [compileWhereEntry, Except.ok.injEq] at h
      rw [← h]
      rfl
  | scalar v =>
      simp only [compileWhereEntry, Except.ok.injEq] at h
      rw [← h]
      rfl
  | arr vs =>
      simp only [compileWhereEntry] at h
      cases hvs : vs.isEmpty with
      | true =>
          rw [hvs] at h
          simp only [if_true, Except.ok.injEq] at h
          rw [← h]
          simp [whereValScalars, hvs]
      | false =>
          rw [hvs] at h
          simp only [Bool.false_eq_true, if_false, Except.ok.injEq] at h
          rw [← h]
          simp [whereValScalars, hvs]
  | obj ops =>
      exact compileOps_params _ ops pr h

/-- Helper: on success, the params of the whole where map are its entries'
scalars concatenated in order. -/
theorem compileWhereAll_params (tu : List (String × String)) (pa : String)
    (wm : List (String × WhereVal)) (pr : List String × List ProxyParam)
    (h : compileWhereAll tu pa wm = .ok pr) :
    pr.2 = (wm.map (fun e => whereValScalars e.2)).flatten := by
  induction wm generalizing pr with
  | nil =>
      simp only [compileWhereAll, Except.ok.injEq] at h
      rw [← h]
      rfl
  | cons e rest ih =>
      obtain ⟨k, wv⟩ := e
      simp only [compileWhereAll] at h
      cases he : compileWhereEntry tu pa (k, wv) with
      | error err =>
          rw [he] at h
          exact Except.noConfusion h
      | ok p1 =>
          rw [he] at h
          cases hr : compileWhereAll tu pa rest with
          | error err =>
              rw [hr] at h
              exact Except.noConfusion h
          | ok p2 =>
              rw [hr] at h
              have h2 : Except.ok (ε := CompileError) (p1.1 ++ p2.1, p1.2 ++ p2.2)
                  = Except.ok pr := h
              rw [← (Except.ok.injEq _ _).mp h2]
              simp only [List.map_cons, List.flatten_cons]
              rw [compileWhereEntry_params tu pa k wv p1 he, ih p2 hr]

/-- Helper: on success, the params of a compiled proxy query are exactly
its user-supplied scalars in binding order — select literals first, then
the where operands. -/
theorem compileProxyQuery_params (qr : ProxyQueryResult)
    (am : List (String × List AliasEntry)) (r : String × List ProxyParam)
    (h : compileProxyQuery qr am = .ok r) :
    r.2 = collectScalars qr := by
  simp only [compileProxyQuery] at h
  split at h
  · exact Except.noConfusion h
  · rename_i tu pa pt tail heq
    cases hj : compileJoins (tablesUsedOf am) pa qr.join with
    | error e =>
        rw [hj] at h
        exact Except.noConfusion h
    | ok js =>
        rw [hj] at h
        cases hw : compileWhereAll (tablesUsedOf am) pa qr.whereMap with
        | error err =>
            rw [hw] at h
            exact Except.noConfusion h
        | ok q =>
            rw [hw] at h
            have h2 : Except.ok (ε := CompileError)
                (assembleSql ((qr.select.map compileSelectEntry).map Prod.fst)
                  pa pt js q.1
                  (qr.orderBy.map (fun p =>
                    resolveFieldRef (tablesUsedOf am) pa p.1 ++ " " ++ p.2.upper))
                  (qr.groupBy.map (fun c => qRef c.aliasName c.column))
                  qr.limit qr.offset,
                ((qr.select.map compileSelectEntry).map Prod.snd).flatten ++ q.2)
                = Except.ok r := h
            rw [← (Except.ok.injEq _ _).mp h2]
            simp only [collectScalars]
            rw [compileWhereAll_params _ _ _ _ hw]
            have : ((qr.select.map compileSelectEntry).map Prod.snd).flatten
                = (qr.select.map (fun e =>
                    match e.2 with
                    | SelectVal.col _ => ([] : List ProxyParam)
                    | SelectVal.lit v => [ProxyParam.pv v])).flatten := by
              rw [List.map_map]
              congr 1
              refine List.map_congr_left ?_
              intro e _
              obtain ⟨n, sv⟩ := e
              cases sv with
              | col c => rfl
              | lit v => rfl
            rw [this]

end SourceProxy

/-- C1 (amended): in every compiled proxy query, the select literals and
where operands are bound parameters only: the emitted SQL text is
invariant under any renaming of those user-supplied values (so no value is
ever interpolated into the text), and on success the params list is
exactly the user-supplied values in binding order. LIMIT and OFFSET are
the exception the counterexample exhibits: their numeric values are
interpolated directly into the SQL text. -/
theorem claim_C1_value_parameterization :
    (∀ (f : JsVal → JsVal) (qr : SourceProxy.ProxyQueryResult)
        (am : List (String × List SourceProxy.AliasEntry)),
      (SourceProxy.compileProxyQuery (SourceProxy.mapScalarsQ f qr) am).map Prod.fst
        = (SourceProxy.compileProxyQuery qr am).map Prod.fst)
    ∧ (∀ (qr : SourceProxy.ProxyQueryResult)
        (am : List (String × List SourceProxy.AliasEntry))
        (r : String × List SourceProxy.ProxyParam),
      SourceProxy.compileProxyQuery qr am = .ok r →
      r.2 = SourceProxy.collectScalars qr) :=
  ⟨SourceProxy.compileProxyQuery_mapScalars_sql,
    SourceProxy.compileProxyQuery_params⟩

/-- Witness for C1 on a concrete query with a select literal and a where
operand: both flow to params in order. -/
theorem claim_C1_witness :
    (SourceProxy.compileProxyQuery
        (SourceProxy.mapScalarsQ (fun v => v)
          { select := [("tag", .lit (JsVal.vstr "x"))],
            whereMap := [("name", .scalar (JsVal.vstr "A"))] })
        [("users", [⟨"users", "t1"⟩])]).map Prod.fst
      = (SourceProxy.compileProxyQuery
          { select := [("tag", .lit (JsVal.vstr "x"))],
            whereMap := [("name", .scalar (JsVal.vstr "A"))] }
          [("users", [⟨"users", "t1"⟩])]).map Prod.fst
    ∧ [SourceProxy.ProxyParam.pv (JsVal.vstr "x"),
        SourceProxy.ProxyParam.pv (JsVal.vstr "A")]
      = SourceProxy.collectScalars
          { select := [("tag", .lit (JsVal.vstr "x"))],
            whereMap := [("name", .scalar (JsVal.vstr "A"))] } :=
  ⟨claim_C1_value_parameterization.1 (fun v => v) _ _,
    claim_C1_value_parameterization.2
      { select := [("tag", .lit (JsVal.vstr "x"))],
        whereMap := [("name", .scalar (JsVal.vstr "A"))] }
      [("users", [⟨"users", "t1"⟩])]
      ("SELECT ? AS \"tag\" FROM \"users\" \"t1\" WHERE \"t1\".\"name\" = ?",
        [SourceProxy.ProxyParam.pv (JsVal.vstr "x"),
          SourceProxy.ProxyParam.pv (JsVal.vstr "A")]) rfl⟩

/-- C1 (counterexample to the original claim): a query with `limit 5` and
`offset 2` compiles to SQL whose text contains the interpolated values
`LIMIT 5 OFFSET 2`, with an empty params list and not a single `?`
placeholder — the limit and offset values are NOT bound parameters. -/
theorem claim_C1_counterexample :
    SourceProxy.compileProxyQuery
        { select := [("name", .col ⟨"users", "name", "t1"⟩)], limit := some 5,
          offset := some 2 }
        [("users", [⟨"users", "t1"⟩])]
      = Except.ok
          ("SELECT \"t1\".\"name\" FROM \"users\" \"t1\" LIMIT 5 OFFSET 2", [])
    ∧ ("SELECT \"t1\".\"name\" FROM \"users\" \"t1\" LIMIT 5 OFFSET 2").data.count '?'
      = 0 := by
  have h5 : intToString 5 = "5" := by
    rw [intToString, if_neg (by norm_num)]
    rw [natToString, natDigits, dif_pos (by norm_num)]
    rfl
  have h2 : intToString 2 = "2" := by
    rw [intToString, if_neg (by norm_num)]
    rw [natToString, natDigits, dif_pos (by norm_num)]
    rfl
  constructor
  · simp only [SourceProxy.compileProxyQuery, SourceProxy.assembleSql, h5, h2]
    rfl
  · decide

namespace SourceProxy

/-- Helper: join compilation succeeds exactly when every pair's aliases are
known. -/
theorem compileJoins_isOk (tu : List (String × String)) (pa : String)
    (joins : List (ColumnNode × ColumnNode)) :
    (compileJoins tu pa joins).isOk = joins.all (joinOk tu) := by
  induction joins with
  | nil => rfl
  | cons j rest ih =>
      obtain ⟨l, r⟩ := j
      simp only [compileJoins, List.all_cons]
      cases hl : lookupStr tu l.aliasName with
      | none =>
          simp [joinOk, hl, Except.isOk, Except.toBool]
      | some lt =>
          cases hr : lookupStr tu r.aliasName with
          | none =>
              simp [joinOk, hl, hr, Except.isOk, Except.toBool]
          | some rt =>
              simp only [joinOk, hl, hr, Option.isSome_some, Bool.and_self,
                Bool.true_and]
              cases hc : compileJoins tu pa rest with
              | error e =>
                  rw [hc] at ih
                  simp only [Except.map]
                  exact ih
              | ok js =>
                  rw [hc] at ih
                  simp only [Except.map]
                  exact ih

/-- Helper: condition-object compilation succeeds exactly when every
operator key is supported (given array operands for `$in`). -/
theorem compileOps_isOk (fr : String) (ops : List (String × Operand))
    (hwf : ops.all (fun o => o.1 != "$in" ||
      match o.2 with
      | Operand.oarr _ => true
      | Operand.oscalar _ => false) = true) :
    (compileOps fr ops).isOk = ops.all (fun o => proxySupportedOp o.1) := by
  induction ops with
  | nil => rfl
  | cons o rest ih =>
      obtain ⟨opKey, operand⟩ := o
      simp only [List.all_cons, Bool.and_eq_true] at hwf
      obtain ⟨hwf1, hwf2⟩ := hwf
      simp only [List.all_cons]
      by_cases hin : opKey = "$in"
      · subst hin
        cases operand with
        | oscalar v => simp at hwf1
        | oarr vs =>
            simp only [compileOps, if_pos rfl]
            have hsup : proxySupportedOp "$in" = true := by decide
            rw [hsup, Bool.true_and]
            cases hc : compileOps fr rest with
            | error e =>
                rw [hc] at ih
                simp only [Except.map]
                exact ih hwf2
            | ok pr =>
                rw [hc] at ih
                simp only [Except.map]
                exact ih hwf2
      · simp only [compileOps, if_neg hin]
        cases hop : opMapLookup opKey with
        | none =>
            have hsup : proxySupportedOp opKey = false := by
              simp [proxySupportedOp, hop, hin]
            simp [hsup, Except.isOk, Except.toBool]
        | some sqlOp =>
            have hsup : proxySupportedOp opKey = true := by
              simp [proxySupportedOp, hop]
            rw [hsup, Bool.true_and]
            cases hc : compileOps fr rest with
            | error e =>
                rw [hc] at ih
                simp only [Except.map]
                exact ih hwf2
            | ok pr =>
                rw [hc] at ih
                simp only [Except.map]
                exact ih hwf2

/-- Helper: one where entry compiles exactly when its operator keys are
supported (given array operands for `$in`). -/
theorem compileWhereEntry_isOk (tu : List (String × String)) (pa : String)
    (key : String) (wv : WhereVal) (hwf : entryInWf wv = true) :
    (compileWhereEntry tu pa (key, wv)).isOk = entryOpsOk wv := by
  cases wv with
  | col c => rfl
  | scalar v => rfl
  | arr vs =>
      simp only [compileWhereEntry, entryOpsOk]
      cases vs.isEmpty <;> rfl
  | obj ops =>
      exact compileOps_isOk _ ops hwf

/-- Helper: the where map compiles exactly when every entry's operator keys
are supported (given array operands for `$in`). -/
theorem compileWhereAll_isOk (tu : List (String × String)) (pa : String)
    (wm : List (String × WhereVal))
    (hwf : wm.all (fun e => entryInWf e.2) = true) :
    (compileWhereAll tu pa wm).isOk = wm.all (fun e => entryOpsOk e.2) := by
  induction wm with
  | nil => rfl
  | cons e rest ih =>
      obtain ⟨k, wv⟩ := e
      simp only [List.all_cons, Bool.and_eq_true] at hwf
      obtain ⟨hwf1, hwf2⟩ := hwf
      simp only [compileWhereAll, List.all_cons]
      have h1 := compileWhereEntry_isOk tu pa k wv hwf1
      cases he : compileWhereEntry tu pa (k, wv) with
      | error err =>
          rw [he] at h1
          simp only [Except.isOk, Except.toBool] at h1
          rw [← h1, Bool.false_and]
          rfl
      | ok p1 =>
          rw [he] at h1
          simp only [Except.isOk, Except.toBool] at h1
          rw [← h1, Bool.true_and]
          cases hr : compileWhereAll tu pa rest with
          | error err =>
              rw [hr] at ih
              simp only [Except.isOk, Except.toBool] at ih ⊢
              exact ih hwf2
          | ok p2 =>
              rw [hr] at ih
              simp only [Except.isOk, Except.toBool] at ih ⊢
              exact ih hwf2

end SourceProxy

/-- Helper: binding after an error is the error (Except monad). -/
theorem except_bind_error {ε α β : Type} (e : ε) (k : α → Except ε β) :
    (do let x ← Except.error e; k x) = Except.error e := rfl

/-- Helper: binding after a success applies the continuation. -/
theorem except_bind_ok {ε α β : Type} (a : α) (k : α → Except ε β) :
    (do let x ← Except.ok a; k x) = k a := rfl

namespace SourceProxy

/-- Helper: a proxy query compiles successfully exactly when at least one
table is referenced, every join pair's aliases are known, and every
where-operator key is supported (given the `$in: array` contract). -/
theorem compileProxyQuery_isOk (qr : ProxyQueryResult)
    (am : List (String × List AliasEntry))
    (hwf : qr.whereMap.all (fun e => entryInWf e.2) = true) :
    (compileProxyQuery qr am).isOk = true ↔
      (tablesUsedOf am ≠ []
        ∧ qr.join.all (joinOk (tablesUsedOf am)) = true
        ∧ qr.whereMap.all (fun e => entryOpsOk e.2) = true) := by
  simp only [compileProxyQuery]
  split
  · rename_i heq
    rw [heq]
    simp [Except.isOk, Except.toBool]
  · rename_i tu pa pt tail heq
    have hjoin := compileJoins_isOk (tablesUsedOf am) pa qr.join
    have hwhere := compileWhereAll_isOk (tablesUsedOf am) pa qr.whereMap hwf
    cases hj : compileJoins (tablesUsedOf am) pa qr.join with
    | error e =>
        rw [hj] at hjoin
        rw [except_bind_error]
        simp only [Except.isOk, Except.toBool] at hjoin ⊢
        constructor
        · intro hcontra
          exact absurd hcontra (by simp)
        · intro ⟨_, hall, _⟩
          rw [hall] at hjoin
          exact absurd hjoin (by simp)
    | ok js =>
        rw [hj] at hjoin
        rw [except_bind_ok]
        simp only [Except.isOk, Except.toBool] at hjoin
        cases hw : compileWhereAll (tablesUsedOf am) pa qr.whereMap with
        | error err =>
            rw [hw] at hwhere
            rw [except_bind_error]
            simp only [Except.isOk, Except.toBool] at hwhere ⊢
            constructor
            · intro hcontra
              exact absurd hcontra (by simp)
            · intro ⟨_, _, hall⟩
              rw [hall] at hwhere
              exact absurd hwhere (by simp)
        | ok q =>
            rw [hw] at hwhere
            rw [except_bind_ok]
            simp only [Except.isOk, Except.toBool] at hwhere ⊢
            refine ⟨fun _ => ⟨?_, hjoin.symm, hwhere.symm⟩, fun _ => trivial⟩
            rw [heq]
            simp

end SourceProxy

namespace SpecBuilder

open SourceProxy

/-- Helper: a builder operator fragment compiles exactly when the operator
key is supported and a `$between` operand is a two-element array (given
the `$in`/`$notIn`: array contract). -/
theorem builderOpFragment_isOk (col opKey : String) (operand : Operand)
    (hwf : (opKey = "$in" ∨ opKey = "$notIn") → ∃ vs, operand = Operand.oarr vs) :
    (builderOpFragment col opKey operand).isOk = true ↔
      (builderSupported opKey = true
        ∧ (opKey = "$between" → ∃ lo hi, operand = Operand.oarr [lo, hi])) := by
  by_cases h1 : opKey = "$gt"
  · subst h1
    simp [builderOpFragment, builderSupported, Except.isOk, Except.toBool]
  · by_cases h2 : opKey = "$gte"
    · subst h2
      simp [builderOpFragment, builderSupported, Except.isOk, Except.toBool]
    · by_cases h3 : opKey = "$lt"
      · subst h3
        simp [builderOpFragment, builderSupported, Except.isOk, Except.toBool]
      · by_cases h4 : opKey = "$lte"
        · subst h4
          simp [builderOpFragment, builderSupported, Except.isOk, Except.toBool]
        · by_cases h5 : opKey = "$ne"
          · subst h5
            simp [builderOpFragment, builderSupported, Except.isOk, Except.toBool]
          · by_cases h6 : opKey = "$like"
            · subst h6
              simp [builderOpFragment, builderSupported, Except.isOk, Except.toBool]
            · by_cases h7 : opKey = "$in"
              · subst h7
                obtain ⟨vs, hvs⟩ := hwf (Or.inl rfl)
                subst hvs
                cases vs with
                | nil =>
                    simp [builderOpFragment, builderSupported, Except.isOk,
                      Except.toBool]
                | cons a l =>
                    simp [builderOpFragment, builderSupported, Except.isOk,
                      Except.toBool]
              · by_cases h8 : opKey = "$notIn"
                · subst h8
                  obtain ⟨vs, hvs⟩ := hwf (Or.inr rfl)
                  subst hvs
                  cases vs with
                  | nil =>
                      simp [builderOpFragment, builderSupported, Except.isOk,
                        Except.toBool]
                  | cons a l =>
                      simp [builderOpFragment, builderSupported, Except.isOk,
                        Except.toBool]
                · by_cases h9 : opKey = "$between"
                  · subst h9
                    cases operand with
                    | oscalar v =>
                        simp [builderOpFragment, builderSupported, Except.isOk,
                          Except.toBool]
                    | oarr vs =>
                        match vs with
                        | [] =>
                            simp [builderOpFragment, builderSupported,
                              Except.isOk, Except.toBool]
                        | [a] =>
                            simp [builderOpFragment, builderSupported,
                              Except.isOk, Except.toBool]
                        | [a, b] =>
                            simp [builderOpFragment, builderSupported,
                              Except.isOk, Except.toBool]
                        | a :: b :: c :: rest =>
                            simp [builderOpFragment, builderSupported,
                              Except.isOk, Except.toBool]
                  · have hsup : builderSupported opKey = false := by
                      simp [builderSupported, h1, h2, h3, h4, h5, h6, h7, h8, h9]
                    have hfrag : builderOpFragment col opKey operand
                        = .error (.unsupportedOperator opKey) := by
                      simp [builderOpFragment, h1, h2, h3, h4, h5, h6, h7, h8, h9]
                    rw [hfrag, hsup]
                    simp [Except.isOk, Except.toBool]

end SpecBuilder

/-- C6: compilation fails synchronously (producing no SQL) exactly when
zero tables are referenced in a proxy query, a join references an unknown
alias, an unsupported operator key appears in a condition object, or
`$between` (builder core) is given anything but a two-element array; in
all other cases compilation succeeds without raising. Stated as success
characterizations: a proxy query compiles iff at least one table is
referenced, every join alias is known, and every operator key is
supported; a builder operator fragment compiles iff its key is supported
and a `$between` operand is a two-element array. (`Except` models the
synchronous throw: an error carries no SQL.) -/
theorem claim_C6_failure_modes :
    (∀ (qr : SourceProxy.ProxyQueryResult)
        (am : List (String × List SourceProxy.AliasEntry)),
      qr.whereMap.all (fun e => SourceProxy.entryInWf e.2) = true →
      ((SourceProxy.compileProxyQuery qr am).isOk = true ↔
        (SourceProxy.tablesUsedOf am ≠ []
          ∧ qr.join.all (SourceProxy.joinOk (SourceProxy.tablesUsedOf am)) = true
          ∧ qr.whereMap.all (fun e => SourceProxy.entryOpsOk e.2) = true)))
    ∧ (∀ (col opKey : String) (operand : SourceProxy.Operand),
      ((opKey = "$in" ∨ opKey = "$notIn") →
        ∃ vs, operand = SourceProxy.Operand.oarr vs) →
      ((SpecBuilder.builderOpFragment col opKey operand).isOk = true ↔
        (SpecBuilder.builderSupported opKey = true
          ∧ (opKey = "$between" →
              ∃ lo hi, operand = SourceProxy.Operand.oarr [lo, hi])))) :=
  ⟨SourceProxy.compileProxyQuery_isOk, SpecBuilder.builderOpFragment_isOk⟩

/-- Witness for C6 at concrete inputs: a one-table query with a supported
`$in` condition satisfies the success characterization, and a `$between`
with a two-element array satisfies the builder characterization. -/
theorem claim_C6_witness :
    ((SourceProxy.compileProxyQuery
        { select := [("name", .col ⟨"users", "name", "t1"⟩)],
          whereMap := [("age", .obj [("$in", .oarr [JsVal.vint 1])])] }
        [("users", [⟨"users", "t1"⟩])]).isOk = true ↔
      (SourceProxy.tablesUsedOf [("users", [⟨"users", "t1"⟩])] ≠ []
        ∧ (([] : List (SourceProxy.ColumnNode × SourceProxy.ColumnNode)).all
            (SourceProxy.joinOk
              (SourceProxy.tablesUsedOf [("users", [⟨"users", "t1"⟩])])) = true)
        ∧ ([("age", SourceProxy.WhereVal.obj
              [("$in", SourceProxy.Operand.oarr [JsVal.vint 1])])].all
            (fun e => SourceProxy.entryOpsOk e.2) = true)))
    ∧ ((SpecBuilder.builderOpFragment "c" "$between"
          (.oarr [JsVal.vint 1, JsVal.vint 2])).isOk = true ↔
        (SpecBuilder.builderSupported "$between" = true
          ∧ ("$between" = "$between" →
              ∃ lo hi, SourceProxy.Operand.oarr [JsVal.vint 1, JsVal.vint 2]
                = SourceProxy.Operand.oarr [lo, hi]))) :=
  ⟨claim_C6_failure_modes.1
      { select := [("name", .col ⟨"users", "name", "t1"⟩)],
        whereMap := [("age", .obj [("$in", .oarr [JsVal.vint 1])])] }
      [("users", [⟨"users", "t1"⟩])] (by decide),
    claim_C6_failure_modes.2 "c" "$between" (.oarr [JsVal.vint 1, JsVal.vint 2])
      (fun h => absurd h (by decide))⟩

namespace SourceSchema

/-- Helper: splitting at the first dot is unique for dot-free prefixes. -/
theorem append_dot_inj (a : List Char) :
    ∀ (b x y : List Char), '.' ∉ a → '.' ∉ b →
    a ++ '.' :: x = b ++ '.' :: y → a = b ∧ x = y := by
  induction a with
  | nil =>
      intro b x y _ hb h
      cases b with
      | nil =>
          simp only [List.nil_append] at h
          exact ⟨rfl, (List.cons.injEq _ _ _ _).mp h |>.2⟩
      | cons c bl =>
          simp only [List.nil_append, List.cons_append, List.cons.injEq] at h
          exact absurd (h.1 ▸ List.mem_cons_self c bl) (fun hc => hb (h.1 ▸ hc))
  | cons c al ih =>
      intro b x y ha hb h
      cases b with
      | nil =>
          simp only [List.cons_append, List.nil_append, List.cons.injEq] at h
          exact absurd (h.1 ▸ List.mem_cons_self c al) (fun hc => ha (h.1 ▸ hc))
      | cons d bl =>
          simp only [List.cons_append, List.cons.injEq] at h
          obtain ⟨hcd, hrest⟩ := h
          have ha2 : '.' ∉ al := fun hm => ha (List.mem_cons_of_mem c hm)
          have hb2 : '.' ∉ bl := fun hm => hb (List.mem_cons_of_mem d hm)
          obtain ⟨h1, h2⟩ := ih bl x y ha2 hb2 hrest
          exact ⟨by rw [hcd, h1], h2⟩

/-- Helper: the composite dedup key splits uniquely into its table, field
and kind parts when the leading table name is dot-free. -/
theorem keyCore_inj (a b a' b' suffix : String)
    (ha : dotFree a) (ha' : dotFree a')
    (h : a ++ "." ++ b ++ suffix = a' ++ "." ++ b' ++ suffix) :
    a = a' ∧ b = b' := by
  have hd := congrArg String.data h
  simp only [String.data_append] at hd
  simp only [List.append_assoc, List.singleton_append] at hd
  obtain ⟨h1, h2⟩ := append_dot_inj a.data (a'.data) (b.data ++ suffix.data)
    (b'.data ++ suffix.data) ha ha' hd
  have h3 : b.data = b'.data := List.append_cancel_right h2
  exact ⟨congrArg String.mk h1, congrArg String.mk h3⟩

/-- Helper: a belongs-to key is never a one-to-many key (distinct kind
suffixes). -/
theorem relKeyBT_ne_relKeyOTM (t f p c : String) :
    relKeyBT t f ≠ relKeyOTM p c := by
  intro h
  have hd := congrArg (fun s => s.data.reverse.head?) h
  simp only [relKeyBT, relKeyOTM, String.data_append, List.reverse_append] at hd
  have h1 : ":belongs-to".data.reverse
      = 'o' :: ":belongs-to".data.reverse.tail := by decide
  have h2 : ":one-to-many".data.reverse
      = 'y' :: ":one-to-many".data.reverse.tail := by decide
  rw [h1, h2] at hd
  simp at hd

end SourceSchema

namespace SourceSchema

/-- Helper: key injectivity for belongs-to dedup keys (dot-free tables). -/
theorem relKeyBT_inj {t f t' f' : String} (ht : dotFree t) (ht' : dotFree t')
    (h : relKeyBT t f = relKeyBT t' f') : t = t' ∧ f = f' :=
  keyCore_inj t f t' f' ":belongs-to" ht ht' h

/-- Helper: key injectivity for one-to-many dedup keys (dot-free tables). -/
theorem relKeyOTM_inj {p c p' c' : String} (hp : dotFree p) (hp' : dotFree p')
    (h : relKeyOTM p c = relKeyOTM p' c') : p = p' ∧ c = c' :=
  keyCore_inj p c p' c' ":one-to-many" hp hp' h

/-- Helper: one config field entry preserves the invariant, only appends to
the state, registers both dedup keys, and leaves behind descriptors with
the entry's exact shape. -/
theorem processRelField_spec (schemas : List String) (fromTable : String)
    (st : RelState) (f : String × String) (st' : RelState)
    (hok : processRelField schemas fromTable st f = .ok st')
    (hinv : StInv st) (hdT : dotFree fromTable) (hdP : dotFree f.2) :
    StInv st'
    ∧ (∀ k ∈ st.added, k ∈ st'.added) ∧ (∀ r ∈ st.rels, r ∈ st'.rels)
    ∧ relKeyBT fromTable f.1 ∈ st'.added
    ∧ relKeyOTM f.2 fromTable ∈ st'.added
    ∧ (∀ r ∈ st'.rels, r ∈ st.rels
        ∨ r = ⟨RelType.belongsTo, fromTable, f.2, f.1, f.1 ++ "_id"⟩
        ∨ r = ⟨RelType.oneToMany, f.2, fromTable, fromTable, ""⟩) := by
  obtain ⟨hmirror, hnd, hbt, hotm, hdf⟩ := hinv
  simp only [processRelField] at hok
  by_cases hs : schemas.contains f.2
  · rw [if_pos hs] at hok
    by_cases hb : relKeyBT fromTable f.1 ∈ st.added
    · rw [if_pos hb] at hok
      by_cases ho : relKeyOTM f.2 fromTable ∈ st.added
      · rw [if_pos ho] at hok
        cases hok
        exact ⟨⟨hmirror, hnd, hbt, hotm, hdf⟩, fun k hk => hk, fun r hr => hr,
          hb, ho, fun r hr => Or.inl hr⟩
      · rw [if_neg ho] at hok
        cases hok
        refine ⟨⟨?_, ?_, ?_, ?_, ?_⟩, ?_, ?_, ?_, ?_, ?_⟩
        · simp only [List.map_append, hmirror, List.map_cons, List.map_nil]
          rfl
        · rw [List.nodup_append]
          refine ⟨hnd, List.nodup_singleton _, ?_⟩
          intro k hk
          simp only [List.mem_singleton]
          intro hcontra
          exact ho (hcontra ▸ hk)
        · intro r hr hty
          rcases List.mem_append.mp hr with h1 | h1
          · exact hbt r h1 hty
          · simp only [List.mem_singleton] at h1
            subst h1
            simp at hty
        · intro r hr hty
          rcases List.mem_append.mp hr with h1 | h1
          · exact hotm r h1 hty
          · simp only [List.mem_singleton] at h1
            subst h1
            exact ⟨rfl, rfl⟩
        · intro r hr
          rcases List.mem_append.mp hr with h1 | h1
          · exact hdf r h1
          · simp only [List.mem_singleton] at h1
            subst h1
            exact hdP
        · intro k hk
          exact List.mem_append_left _ hk
        · intro r hr
          exact List.mem_append_left _ hr
        · exact List.mem_append_left _ hb
        · exact List.mem_append_right _ (List.mem_singleton_self _)
        · intro r hr
          rcases List.mem_append.mp hr with h1 | h1
          · exact Or.inl h1
          · simp only [List.mem_singleton] at h1
            exact Or.inr (Or.inr h1)
    · rw [if_neg hb] at hok
      by_cases ho : relKeyOTM f.2 fromTable
          ∈ st.added ++ [relKeyBT fromTable f.1]
      · rw [if_pos ho] at hok
        cases hok
        refine ⟨⟨?_, ?_, ?_, ?_, ?_⟩, ?_, ?_, ?_, ?_, ?_⟩
        · show st.added ++ [relKeyBT fromTable f.1]
            = (st.rels ++ [(⟨RelType.belongsTo, fromTable, f.2, f.1,
                f.1 ++ "_id"⟩ : Relationship)]).map descKey
          simp only [List.map_append, hmirror, List.map_cons, List.map_nil]
          rfl
        · show (st.added ++ [relKeyBT fromTable f.1]).Nodup
          rw [List.nodup_append]
          refine ⟨hnd, List.nodup_singleton _, ?_⟩
          intro k hk
          simp only [List.mem_singleton]
          intro hcontra
          exact hb (hcontra ▸ hk)
        · intro r hr hty
          rcases List.mem_append.mp hr with h1 | h1
          · exact hbt r h1 hty
          · simp only [List.mem_singleton] at h1
            subst h1
            rfl
        · intro r hr hty
          rcases List.mem_append.mp hr with h1 | h1
          · exact hotm r h1 hty
          · simp only [List.mem_singleton] at h1
            subst h1
            simp at hty
        · intro r hr
          rcases List.mem_append.mp hr with h1 | h1
          · exact hdf r h1
          · simp only [List.mem_singleton] at h1
            subst h1
            exact hdT
        · intro k hk
          exact List.mem_append_left _ hk
        · intro r hr
          exact List.mem_append_left _ hr
        · exact List.mem_append_right _ (List.mem_singleton_self _)
        · exact ho
        · intro r hr
          rcases List.mem_append.mp hr with h1 | h1
          · exact Or.inl h1
          · simp only [List.mem_singleton] at h1
            exact Or.inr (Or.inl h1)
      · rw [if_neg ho] at hok
        cases hok
        have hone : relKeyOTM f.2 fromTable ∉ st.added := by
          intro hcontra
          exact ho (List.mem_append_left _ hcontra)
        refine ⟨⟨?_, ?_, ?_, ?_, ?_⟩, ?_, ?_, ?_, ?_, ?_⟩
        · show (st.added ++ [relKeyBT fromTable f.1]) ++ [relKeyOTM f.2 fromTable]
            = ((st.rels ++ [(⟨RelType.belongsTo, fromTable, f.2, f.1,
                  f.1 ++ "_id"⟩ : Relationship)])
                ++ [(⟨RelType.oneToMany, f.2, fromTable, fromTable,
                  ""⟩ : Relationship)]).map descKey
          simp only [List.map_append, hmirror, List.map_cons, List.map_nil]
          rfl
        · show ((st.added ++ [relKeyBT fromTable f.1])
            ++ [relKeyOTM f.2 fromTable]).Nodup
          rw [List.nodup_append]
          refine ⟨?_, List.nodup_singleton _, ?_⟩
          · rw [List.nodup_append]
            refine ⟨hnd, List.nodup_singleton _, ?_⟩
            intro k hk
            simp only [List.mem_singleton]
            intro hcontra
            exact hb (hcontra ▸ hk)
          · intro k hk
            simp only [List.mem_singleton]
            intro hcontra
            subst hcontra
            rcases List.mem_append.mp hk with h1 | h1
            · exact hone h1
            · simp only [List.mem_singleton] at h1
              exact relKeyBT_ne_relKeyOTM _ _ _ _ h1.symm
        · intro r hr hty
          rcases List.mem_append.mp hr with h1 | h1
          · rcases List.mem_append.mp h1 with h2 | h2
            · exact hbt r h2 hty
            · simp only [List.mem_singleton] at h2
              subst h2
              rfl
          · simp only [List.mem_singleton] at h1
            subst h1
            simp at hty
        · intro r hr hty
          rcases List.mem_append.mp hr with h1 | h1
          · rcases List.mem_append.mp h1 with h2 | h2
            · exact hotm r h2 hty
            · simp only [List.mem_singleton] at h2
              subst h2
              simp at hty
          · simp only [List.mem_singleton] at h1
            subst h1
            exact ⟨rfl, rfl⟩
        · intro r hr
          rcases List.mem_append.mp hr with h1 | h1
          · rcases List.mem_append.mp h1 with h2 | h2
            · exact hdf r h2
            · simp only [List.mem_singleton] at h2
              subst h2
              exact hdT
          · simp only [List.mem_singleton] at h1
            subst h1
            exact hdP
        · intro k hk
          exact List.mem_append_left _ (List.mem_append_left _ hk)
        · intro r hr
          exact List.mem_append_left _ (List.mem_append_left _ hr)
        · exact List.mem_append_left _
            (List.mem_append_right _ (List.mem_singleton_self _))
        · exact List.mem_append_right _ (List.mem_singleton_self _)
        · intro r hr
          rcases List.mem_append.mp hr with h1 | h1
          · rcases List.mem_append.mp h1 with h2 | h2
            · exact Or.inl h2
            · simp only [List.mem_singleton] at h2
              exact Or.inr (Or.inl h2)
          · simp only [List.mem_singleton] at h1
            exact Or.inr (Or.inr h1)
  · rw [if_neg hs] at hok
    exact Except.noConfusion hok

end SourceSchema

/-- Helper: a filter whose predicate selects exactly one element of a
duplicate-free list returns that singleton. -/
theorem filter_eq_singleton {α : Type} (l : List α) (p : α → Bool) (x : α)
    (hnd : l.Nodup) (hx : x ∈ l) (hpx : p x = true)
    (huniq : ∀ y ∈ l, p y = true → y = x) : l.filter p = [x] := by
  induction l with
  | nil => exact absurd hx (List.not_mem_nil x)
  | cons a rest ih =>
      rw [List.nodup_cons] at hnd
      rcases List.mem_cons.mp hx with h1 | h1
      · subst h1
        rw [List.filter_cons_of_pos hpx]
        have : rest.filter p = [] := by
          rw [List.filter_eq_nil_iff]
          intro y hy hpy
          exact hnd.1 ((huniq y (List.mem_cons_of_mem _ hy) hpy) ▸ hy)
        rw [this]
      · have hax : a ≠ x := by
          intro hc
          exact hnd.1 (hc ▸ h1)
        have hpa : p a = false := by
          cases hp : p a with
          | false => rfl
          | true => exact absurd (huniq a (List.mem_cons_self _ _) hp) hax
        rw [List.filter_cons_of_neg (by simp [hpa])]
        exact ih hnd.2 h1 (fun y hy hpy => huniq y (List.mem_cons_of_mem _ hy) hpy)

namespace SourceSchema

/-- Helper: the shape of the belongs-to descriptor a config entry emits. -/
theorem processRelFields_spec (schemas : List String) (fromTable : String) :
    ∀ (fields : List (String × String)) (st st' : RelState),
    processRelFields schemas fromTable st fields = .ok st' →
    StInv st → dotFree fromTable → (∀ f ∈ fields, dotFree f.2) →
    StInv st'
    ∧ (∀ k ∈ st.added, k ∈ st'.added) ∧ (∀ r ∈ st.rels, r ∈ st'.rels)
    ∧ (∀ f ∈ fields, schemas.contains f.2 = true
        ∧ relKeyBT fromTable f.1 ∈ st'.added
        ∧ relKeyOTM f.2 fromTable ∈ st'.added)
    ∧ (∀ r ∈ st'.rels, r ∈ st.rels
        ∨ ∃ f ∈ fields,
            r = (⟨RelType.belongsTo, fromTable, f.2, f.1, f.1 ++ "_id"⟩ : Relationship)
            ∨ r = (⟨RelType.oneToMany, f.2, fromTable, fromTable, ""⟩ : Relationship)) := by
  intro fields
  induction fields with
  | nil =>
      intro st st' hok hinv hdT hdAll
      simp only [processRelFields, Except.ok.injEq] at hok
      subst hok
      exact ⟨hinv, fun k hk => hk, fun r hr => hr, by simp,
        fun r hr => Or.inl hr⟩
  | cons f rest ih =>
      intro st st' hok hinv hdT hdAll
      simp only [processRelFields] at hok
      cases hf : processRelField schemas fromTable st f with
      | error e =>
          rw [hf] at hok
          exact Except.noConfusion hok
      | ok st1 =>
          rw [hf] at hok
          have hvalid : schemas.contains f.2 = true := by
            by_contra hc
            rw [processRelField, if_neg hc] at hf
            exact Except.noConfusion hf
          have hstep := processRelField_spec schemas fromTable st f st1 hf hinv
            hdT (by
              have := hdAll f (List.mem_cons_self _ _)
              exact this)
          obtain ⟨hinv1, hmono1, hrels1, hbt1, hotm1, hprov1⟩ := hstep
          have hrest := ih st1 st' hok hinv1 hdT
            (fun g hg => hdAll g (List.mem_cons_of_mem _ hg))
          obtain ⟨hinv2, hmono2, hrels2, hmem2, hprov2⟩ := hrest
          refine ⟨hinv2, fun k hk => hmono2 k (hmono1 k hk),
            fun r hr => hrels2 r (hrels1 r hr), ?_, ?_⟩
          · intro g hg
            rcases List.mem_cons.mp hg with h1 | h1
            · subst h1
              exact ⟨hvalid, hmono2 _ hbt1, hmono2 _ hotm1⟩
            · exact hmem2 g h1
          · intro r hr
            rcases hprov2 r hr with h1 | ⟨g, hg, h2⟩
            · rcases hprov1 r h1 with h3 | h3 | h3
              · exact Or.inl h3
              · exact Or.inr ⟨f, List.mem_cons_self _ _, Or.inl h3⟩
              · exact Or.inr ⟨f, List.mem_cons_self _ _, Or.inr h3⟩
            · exact Or.inr ⟨g, List.mem_cons_of_mem _ hg, h2⟩

/-- Helper: processing the whole config preserves the invariant, registers
every entry's keys, validates every name, and every emitted descriptor
originates from some entry with the exact pushed shape. -/
theorem processRelTables_spec (schemas : List String) :
    ∀ (l : List (String × List (String × String))) (st st' : RelState),
    processRelTables schemas st l = .ok st' →
    StInv st → (∀ p ∈ l, dotFree p.1 ∧ ∀ f ∈ p.2, dotFree f.2) →
    StInv st'
    ∧ (∀ k ∈ st.added, k ∈ st'.added) ∧ (∀ r ∈ st.rels, r ∈ st'.rels)
    ∧ (∀ p ∈ l, schemas.contains p.1 = true
        ∧ ∀ f ∈ p.2, schemas.contains f.2 = true
          ∧ relKeyBT p.1 f.1 ∈ st'.added
          ∧ relKeyOTM f.2 p.1 ∈ st'.added)
    ∧ (∀ r ∈ st'.rels, r ∈ st.rels
        ∨ ∃ p ∈ l, ∃ f ∈ p.2,
            r = (⟨RelType.belongsTo, p.1, f.2, f.1, f.1 ++ "_id"⟩ : Relationship)
            ∨ r = (⟨RelType.oneToMany, f.2, p.1, p.1, ""⟩ : Relationship)) := by
  intro l
  induction l with
  | nil =>
      intro st st' hok hinv hd
      simp only [processRelTables, Except.ok.injEq] at hok
      subst hok
      exact ⟨hinv, fun k hk => hk, fun r hr => hr, by simp,
        fun r hr => Or.inl hr⟩
  | cons t rest ih =>
      intro st st' hok hinv hd
      simp only [processRelTables] at hok
      by_cases hct : schemas.contains t.1
      · rw [if_pos hct] at hok
        cases hf : processRelFields schemas t.1 st t.2 with
        | error e =>
            rw [hf] at hok
            exact Except.noConfusion hok
        | ok st1 =>
            rw [hf] at hok
            obtain ⟨hdT, hdF⟩ := hd t (List.mem_cons_self _ _)
            have hstep := processRelFields_spec schemas t.1 t.2 st st1 hf hinv
              hdT hdF
            obtain ⟨hinv1, hmono1, hrels1, hmem1, hprov1⟩ := hstep
            have hrest := ih st1 st' hok hinv1
              (fun p hp => hd p (List.mem_cons_of_mem _ hp))
            obtain ⟨hinv2, hmono2, hrels2, hmem2, hprov2⟩ := hrest
            refine ⟨hinv2, fun k hk => hmono2 k (hmono1 k hk),
              fun r hr => hrels2 r (hrels1 r hr), ?_, ?_⟩
            · intro p hp
              rcases List.mem_cons.mp hp with h1 | h1
              · subst h1
                refine ⟨hct, ?_⟩
                intro f hf2
                obtain ⟨hv, hb, ho⟩ := hmem1 f hf2
                exact ⟨hv, hmono2 _ hb, hmono2 _ ho⟩
              · exact hmem2 p h1
            · intro r hr
              rcases hprov2 r hr with h1 | ⟨p, hp, hrest2⟩
              · rcases hprov1 r h1 with h3 | ⟨f, hf2, h4⟩
                · exact Or.inl h3
                · exact Or.inr ⟨t, List.mem_cons_self _ _, f, hf2, h4⟩
              · exact Or.inr ⟨p, List.mem_cons_of_mem _ hp, hrest2⟩
      · rw [if_neg hct] at hok
        exact Except.noConfusion hok

end SourceSchema

namespace SourceSchema

/-- Helper: a field entry whose keys are already registered (and whose
target exists) is a no-op. -/
theorem processRelField_id (schemas : List String) (fromTable : String)
    (st : RelState) (f : String × String)
    (hv : schemas.contains f.2 = true)
    (hb : relKeyBT fromTable f.1 ∈ st.added)
    (ho : relKeyOTM f.2 fromTable ∈ st.added) :
    processRelField schemas fromTable st f = .ok st := by
  simp only [processRelField]
  rw [if_pos hv, if_pos hb, if_pos ho]

/-- Helper: a field list whose keys are all registered is a no-op. -/
theorem processRelFields_id (schemas : List String) (fromTable : String)
    (st : RelState) :
    ∀ (fields : List (String × String)),
    (∀ f ∈ fields, schemas.contains f.2 = true
      ∧ relKeyBT fromTable f.1 ∈ st.added
      ∧ relKeyOTM f.2 fromTable ∈ st.added) →
    processRelFields schemas fromTable st fields = .ok st := by
  intro fields
  induction fields with
  | nil => intro _; rfl
  | cons f rest ih =>
      intro h
      obtain ⟨hv, hb, ho⟩ := h f (List.mem_cons_self _ _)
      simp only [processRelFields, processRelField_id schemas fromTable st f hv hb ho]
      exact ih (fun g hg => h g (List.mem_cons_of_mem _ hg))

/-- Helper: a config whose keys are all registered is a no-op. -/
theorem processRelTables_id (schemas : List String) (st : RelState) :
    ∀ (l : List (String × List (String × String))),
    (∀ p ∈ l, schemas.contains p.1 = true
      ∧ ∀ f ∈ p.2, schemas.contains f.2 = true
        ∧ relKeyBT p.1 f.1 ∈ st.added
        ∧ relKeyOTM f.2 p.1 ∈ st.added) →
    processRelTables schemas st l = .ok st := by
  intro l
  induction l with
  | nil => intro _; rfl
  | cons t rest ih =>
      intro h
      obtain ⟨hct, hfields⟩ := h t (List.mem_cons_self _ _)
      simp only [processRelTables, if_pos hct,
        processRelFields_id schemas t.1 st t.2 hfields]
      exact ih (fun p hp => h p (List.mem_cons_of_mem _ hp))

/-- Helper: processing a concatenated config is processing the halves in
sequence. -/
theorem processRelTables_append (schemas : List String) :
    ∀ (l1 l2 : List (String × List (String × String))) (st : RelState),
    processRelTables schemas st (l1 ++ l2)
      = (processRelTables schemas st l1).bind
          (fun st1 => processRelTables schemas st1 l2) := by
  intro l1
  induction l1 with
  | nil =>
      intro l2 st
      rfl
  | cons t rest ih =>
      intro l2 st
      simp only [List.cons_append, processRelTables]
      by_cases hct : schemas.contains t.1
      · rw [if_pos hct, if_pos hct]
        cases hf : processRelFields schemas t.1 st t.2 with
        | error e => rfl
        | ok st1 =>
            simp only [except_bind_ok]
            exact ih l2 st1
      · rw [if_neg hct, if_neg hct]
        rfl

end SourceSchema

namespace SourceSchema

/-- Helper: in a list with duplicate-free keys, an entry is determined by
its key. -/
theorem assoc_unique {α β : Type} (l : List (α × β))
    (hnd : (l.map Prod.fst).Nodup) {a : α} {b c : β}
    (h1 : (a, b) ∈ l) (h2 : (a, c) ∈ l) : b = c := by
  have := List.inj_on_of_nodup_map hnd h1 h2 rfl
  exact congrArg Prod.snd this

end SourceSchema

/-- C3 (amended): for every valid, dot-free, duplicate-free relations
config, the config-driven registry contains each belongs-to descriptor
exactly once (with FK = field ++ "_id"), exactly one inferred one-to-many
inverse per (parent, child) pair, and re-processing the same configuration
adds no duplicate descriptors (the dedup-key set makes the second pass a
no-op). The schema-driven path (parseRelationships) does not auto-
synthesize inverses — the counterexample exhibits a belongs-to without any
one-to-many — so the original claim's "either construction path" fails. -/
theorem claim_C3_registry_invariants
    (relations : List (String × List (String × String))) (schemas : List String)
    (rels : List SourceSchema.Relationship)
    (hok : SourceSchema.parseRelationsConfig relations schemas = .ok rels)
    (hdot : ∀ p ∈ relations, SourceSchema.dotFree p.1
      ∧ ∀ f ∈ p.2, SourceSchema.dotFree f.2)
    (hndT : (relations.map Prod.fst).Nodup)
    (hndF : ∀ p ∈ relations, (p.2.map Prod.fst).Nodup) :
    (∀ T fields f, (T, fields) ∈ relations → f ∈ fields →
      rels.filter (fun r => r.type == SourceSchema.RelType.belongsTo
          && r.fromTable == T && r.relationshipField == f.1)
        = [⟨SourceSchema.RelType.belongsTo, T, f.2, f.1, f.1 ++ "_id"⟩]
      ∧ rels.filter (fun r => r.type == SourceSchema.RelType.oneToMany
          && r.fromTable == f.2 && r.toTable == T)
        = [⟨SourceSchema.RelType.oneToMany, f.2, T, T, ""⟩])
    ∧ SourceSchema.parseRelationsConfig (relations ++ relations) schemas
        = .ok rels := by
  simp only [SourceSchema.parseRelationsConfig] at hok
  cases hpt : SourceSchema.processRelTables schemas ⟨[], []⟩ relations with
  | error e =>
      rw [hpt] at hok
      exact Except.noConfusion hok
  | ok stF =>
      rw [hpt] at hok
      simp only [Except.map, Except.ok.injEq] at hok
      have hinv0 : SourceSchema.StInv ⟨[], []⟩ := by
        refine ⟨rfl, List.nodup_nil, ?_, ?_, ?_⟩ <;> intro r hr <;>
          exact absurd hr (List.not_mem_nil r)
      obtain ⟨hinvF, _, _, hmem, hprov⟩ :=
        SourceSchema.processRelTables_spec schemas relations ⟨[], []⟩ stF hpt
          hinv0 hdot
      obtain ⟨hmirror, hndKeys, hbtShape, hotmShape, hdfAll⟩ := hinvF
      have hrelsNd : stF.rels.Nodup := by
        rw [hmirror] at hndKeys
        exact hndKeys.of_map
      have hkeyInj : ∀ x ∈ stF.rels, ∀ y ∈ stF.rels,
          SourceSchema.descKey x = SourceSchema.descKey y → x = y := by
        rw [hmirror] at hndKeys
        intro x hx y hy hxy
        exact List.inj_on_of_nodup_map hndKeys hx hy hxy
      subst hok
      constructor
      · intro T fields f hT hf
        obtain ⟨hdT, hdFs⟩ := hdot (T, fields) hT
        have hdP : SourceSchema.dotFree f.2 := hdFs f hf
        obtain ⟨_, hfmem⟩ := hmem (T, fields) hT
        obtain ⟨_, hbtKey, hotmKey⟩ := hfmem f hf
        constructor
        · rw [hmirror] at hbtKey
          obtain ⟨r0, hr0mem, hr0key⟩ := List.mem_map.mp hbtKey
          have hr0bt : r0.type = SourceSchema.RelType.belongsTo := by
            cases hty : r0.type with
            | belongsTo => rfl
            | oneToMany =>
                rw [SourceSchema.descKey, hty] at hr0key
                exact absurd hr0key.symm
                  (SourceSchema.relKeyBT_ne_relKeyOTM _ _ _ _)
          rw [SourceSchema.descKey, hr0bt] at hr0key
          obtain ⟨hrT, hrF⟩ := SourceSchema.relKeyBT_inj (hdfAll r0 hr0mem) hdT hr0key
          have hr0exact : r0 = ⟨SourceSchema.RelType.belongsTo, T, f.2, f.1,
              f.1 ++ "_id"⟩ := by
            rcases hprov r0 hr0mem with hc | ⟨p, hp, g, hg, hshape | hshape⟩
            · exact absurd hc (List.not_mem_nil r0)
            · have hpT : p.1 = T := by
                rw [hshape] at hrT
                exact hrT
              have hpfields : p.2 = fields := by
                have hpmem : (T, p.2) ∈ relations := by
                  have : p = (p.1, p.2) := rfl
                  rw [hpT] at this
                  exact this ▸ hp
                exact SourceSchema.assoc_unique relations hndT hpmem hT
              have hgf : g = f := by
                rw [hpfields] at hg
                have hgT : g.1 = f.1 := by
                  rw [hshape] at hrF
                  exact hrF
                exact List.inj_on_of_nodup_map (hndF (T, fields) hT) hg hf hgT
              rw [hshape, hpT, hgf]
            · rw [hshape] at hr0bt
              simp at hr0bt
          refine filter_eq_singleton _ _ _ hrelsNd (hr0exact ▸ hr0mem) (by simp) ?_
          intro y hy hpy
          simp only [Bool.and_eq_true, beq_iff_eq] at hpy
          obtain ⟨⟨hy1, hy2⟩, hy3⟩ := hpy
          rw [← hr0exact]
          refine hkeyInj y hy r0 hr0mem ?_
          rw [SourceSchema.descKey, SourceSchema.descKey, hy1, hr0bt, hy2, hy3,
            hrT, hrF]
        · rw [hmirror] at hotmKey
          obtain ⟨r1, hr1mem, hr1key⟩ := List.mem_map.mp hotmKey
          have hr1otm : r1.type = SourceSchema.RelType.oneToMany := by
            cases hty : r1.type with
            | oneToMany => rfl
            | belongsTo =>
                rw [SourceSchema.descKey, hty] at hr1key
                exact absurd hr1key
                  (SourceSchema.relKeyBT_ne_relKeyOTM _ _ _ _)
          rw [SourceSchema.descKey, hr1otm] at hr1key
          obtain ⟨hrP, hrC⟩ := SourceSchema.relKeyOTM_inj (hdfAll r1 hr1mem) hdP hr1key
          obtain ⟨hnav, hfk⟩ := hotmShape r1 hr1mem hr1otm
          have hr1exact : r1 = ⟨SourceSchema.RelType.oneToMany, f.2, T, T, ""⟩ := by
            cases r1 with
            | mk ty ft tt rf fk =>
                have e1 : ty = SourceSchema.RelType.oneToMany := hr1otm
                have e2 : ft = f.2 := hrP
                have e3 : tt = T := hrC
                have e4 : rf = tt := hnav
                have e5 : fk = "" := hfk
                subst e1
                subst e3
                subst e4
                subst e5
                rw [e2]
          refine filter_eq_singleton _ _ _ hrelsNd (hr1exact ▸ hr1mem) (by simp) ?_
          intro y hy hpy
          simp only [Bool.and_eq_true, beq_iff_eq] at hpy
          obtain ⟨⟨hy1, hy2⟩, hy3⟩ := hpy
          rw [← hr1exact]
          refine hkeyInj y hy r1 hr1mem ?_
          rw [SourceSchema.descKey, SourceSchema.descKey, hy1, hr1otm, hy2, hy3,
            hrP, hrC]
      · simp only [SourceSchema.parseRelationsConfig]
        rw [SourceSchema.processRelTables_append, hpt]
        simp only [Except.bind]
        rw [SourceSchema.processRelTables_id schemas stF relations ?_]
        · rfl
        · intro p hp
          obtain ⟨hct, hfs⟩ := hmem p hp
          exact ⟨hct, hfs⟩

/-- C3 (counterexample to the original claim): the schema-driven path
(parseRelationships) emits a belongs-to for a scalar lazy field without
synthesizing any one-to-many inverse, so a registry built by that
construction path violates the claimed "exactly one inferred inverse"
invariant. -/
theorem claim_C3_counterexample :
    SourceSchema.parseRelationships
        [("users", ⟨0, [("name", SourceSchema.FieldDecl.plain)]⟩),
          ("posts", ⟨1, [("author", SourceSchema.FieldDecl.lazyRef 0)]⟩)]
      = [⟨SourceSchema.RelType.belongsTo, "posts", "users", "author", "authorId"⟩]
    ∧ (SourceSchema.parseRelationships
        [("users", ⟨0, [("name", SourceSchema.FieldDecl.plain)]⟩),
          ("posts", ⟨1, [("author", SourceSchema.FieldDecl.lazyRef 0)]⟩)]).filter
        (fun r => r.type == SourceSchema.RelType.oneToMany
          && r.fromTable == "users" && r.toTable == "posts")
      = [] := by
  refine ⟨by decide, by decide⟩

/-- Witness for C3 at the spec's own example config
`{books: {author: 'authors'}}`: exactly one belongs-to, exactly one
inferred inverse, and re-processing is a no-op. -/
theorem claim_C3_witness :
    ([⟨SourceSchema.RelType.belongsTo, "books", "authors", "author", "author_id"⟩,
        ⟨SourceSchema.RelType.oneToMany, "authors", "books", "books", ""⟩]
      : List SourceSchema.Relationship).filter
        (fun r => r.type == SourceSchema.RelType.belongsTo
          && r.fromTable == "books" && r.relationshipField == "author")
      = [⟨SourceSchema.RelType.belongsTo, "books", "authors", "author",
          "author" ++ "_id"⟩]
    ∧ ([⟨SourceSchema.RelType.belongsTo, "books", "authors", "author", "author_id"⟩,
          ⟨SourceSchema.RelType.oneToMany, "authors", "books", "books", ""⟩]
        : List SourceSchema.Relationship).filter
          (fun r => r.type == SourceSchema.RelType.oneToMany
            && r.fromTable == "authors" && r.toTable == "books")
        = [⟨SourceSchema.RelType.oneToMany, "authors", "books", "books", ""⟩]
    ∧ SourceSchema.parseRelationsConfig
        ([("books", [("author", "authors")])] ++ [("books", [("author", "authors")])])
        ["books", "authors"]
      = .ok [⟨SourceSchema.RelType.belongsTo, "books", "authors", "author",
            "author_id"⟩,
          ⟨SourceSchema.RelType.oneToMany, "authors", "books", "books", ""⟩] := by
  have h := claim_C3_registry_invariants
    [("books", [("author", "authors")])] ["books", "authors"]
    [⟨SourceSchema.RelType.belongsTo, "books", "authors", "author", "author_id"⟩,
      ⟨SourceSchema.RelType.oneToMany, "authors", "books", "books", ""⟩]
    rfl
    (by
      intro p hp
      simp only [List.mem_singleton] at hp
      subst hp
      refine ⟨(by decide : ¬ '.' ∈ ("books" : String).data), ?_⟩
      intro f hf
      simp only [List.mem_singleton] at hf
      subst hf
      exact (by decide : ¬ '.' ∈ ("authors" : String).data))
    (by decide)
    (by
      intro p hp
      simp only [List.mem_singleton] at hp
      subst hp
      decide)
  obtain ⟨h1, h2⟩ := h
  have h3 := h1 "books" [("author", "authors")] ("author", "authors")
    (List.mem_singleton_self _) (List.mem_singleton_self _)
  exact ⟨h3.1, h3.2, h2⟩
